import Mathlib

/-!
Verification of the `PoolGraph` module of the balancer-sdk repository
(`src/balancer-js/src/modules/joins/graph.ts`).

The TypeScript code builds an in-memory tree of `Node` objects describing the
composition of a nested liquidity pool, orders it breadth-first, and extracts
root paths.  Nodes are mutable objects linked by references (`children`,
`parent`), so the embedding uses an explicit heap: a `List Node` indexed by
natural-number handles.  Object identity becomes handle equality, object
mutation becomes `List.set`, and object allocation becomes appending to the
heap.  `BigNumber` values are non-negative arbitrary-precision integers in
every use of this module, so they are embedded as `Nat` with truncating
division; `BigNumber.div` faults on a zero divisor, which is modelled by an
explicit error.  Asynchronous pool lookups are modelled as a pure environment
of lookup functions (the repository treats the repository collaborator as an
external capability); recursion over unknown pool graphs is bounded by
explicit fuel.
-/

namespace Balancer

/-- `WeiPerEther` from `@ethersproject/constants`: the fixed-point scale 10^18. -/
def WeiPerEtherN : Nat := 1000000000000000000

/-- A pool token as consumed by `graph.ts`: its address, optional decimals and
its parsed (already upscaled) balance.

Modelled from the spec: `parsePoolInfo` (imported from `@/lib/utils`, not part
of the provided sources) supplies the per-token parsed balances aligned with
the token list; it is modelled by storing the parsed balance directly on the
token record ("sum of the pool's parsed token balances", spec section 4.1). -/
structure PoolToken where
  address : String
  decimals : Option Nat
  parsedBalance : Nat
  deriving DecidableEq

/-- The fields of a pool record consumed by `graph.ts`.  `tokensList` is the
list of the token addresses in token order (the TS record stores it
separately but in this module it is always used consistently with `tokens`),
so it is derived below. -/
structure Pool where
  id : String
  address : String
  poolType : String
  tokens : List PoolToken
  wrappedIndex : Option Nat
  mainIndex : Option Nat
  deriving DecidableEq

/-- `pool.tokensList`: addresses of the pool's tokens in token order. -/
def Pool.tokensList (p : Pool) : List String := p.tokens.map (·.address)

/-- `parsedBalances` of `parsePoolInfo(pool)` (see `PoolToken.parsedBalance`). -/
def parsedBalances (p : Pool) : List Nat := p.tokens.map (·.parsedBalance)

/-- The `Node` interface of `graph.ts`.  `children` and `parent` are heap
handles; `spotPrices` is the token-address-to-price map collected in
insertion order. -/
structure Node where
  address : String
  id : String
  joinAction : String
  exitAction : String
  type : String
  children : List Nat
  marked : Bool
  index : String
  proportionOfParent : Nat
  parent : Option Nat
  isLeaf : Bool
  spotPrices : List (String × String)
  decimals : Nat
  deriving DecidableEq

instance : Inhabited Node :=
  ⟨{ address := "", id := "", joinAction := "", exitAction := "", type := "",
     children := [], marked := false, index := "", proportionOfParent := 0,
     parent := none, isLeaf := false, spotPrices := [], decimals := 0 }⟩

/-- Dereference a heap handle (handles produced by the module are always in
range; out-of-range handles yield the default node). -/
def getN (heap : List Node) (h : Nat) : Node := (heap.get? h).getD default

/-- The `joinActions` lookup table of `graph.ts`. -/
def joinActions : String → Option String
  | "AaveLinear" => some "batchSwap"
  | "ERC4626Linear" => some "batchSwap"
  | "Element" => some "batchSwap"
  | "Investment" => some "joinPool"
  | "LiquidityBootstrapping" => some "joinPool"
  | "MetaStable" => some "joinPool"
  | "Stable" => some "joinPool"
  | "StablePhantom" => some "batchSwap"
  | "Weighted" => some "joinPool"
  | "ComposableStable" => some "joinPool"
  | _ => none

/-- The `exitActions` lookup table of `graph.ts`. -/
def exitActions : String → Option String
  | "AaveLinear" => some "batchSwap"
  | "ERC4626Linear" => some "batchSwap"
  | "Element" => some "batchSwap"
  | "Investment" => some "exitPool"
  | "LiquidityBootstrapping" => some "exitPool"
  | "MetaStable" => some "exitPool"
  | "Stable" => some "exitPool"
  | "StablePhantom" => some "batchSwap"
  | "Weighted" => some "exitPool"
  | "ComposableStable" => some "exitPool"
  | _ => none

/-- Whether the character list `p` occurs at the start of `s`. -/
def charsStartWith : List Char → List Char → Bool
  | [], _ => true
  | _ :: _, [] => false
  | p :: ps, c :: cs => p == c && charsStartWith ps cs

/-- Whether `pat` occurs somewhere in `s` (JS `String.includes`). -/
def containsSubstrAux (pat : List Char) : List Char → Bool
  | [] => charsStartWith pat []
  | c :: cs => charsStartWith pat (c :: cs) || containsSubstrAux pat cs

/-- `s.includes(pat)` for strings. -/
def strIncludes (s pat : String) : Bool := containsSubstrAux pat.toList s.toList

/-- ASCII lowercasing of one character (the addresses this module compares
are hex-digit ASCII strings, for which JS `toLowerCase` is exactly ASCII
lowercasing). -/
def charLower (c : Char) : Char :=
  if 65 ≤ c.toNat ∧ c.toNat ≤ 90 then Char.ofNat (c.toNat + 32) else c

/-- JS `String.prototype.toLowerCase` on the strings handled here. -/
def strToLower (s : String) : String := String.mk (s.data.map charLower)

/-- The errors the module can raise.  `poolNotFound` / `unsupportedPoolType` /
`inputTokenInvalid` are the `BalancerError` codes used in `graph.ts`;
`issueWithLinearPool` is the generic `Error('Issue With Linear Pool')`;
`typeError` models a JS `TypeError` raised by reading a property of
`undefined` (e.g. the unchecked `as Pool` cast in the leaf-token fallback);
`numericFault` models `BigNumber`'s division-by-zero fault; `outOfFuel` is
the artefact of bounding unbounded recursion with fuel. -/
inductive BuildError
  | poolNotFound
  | unsupportedPoolType
  | inputTokenInvalid
  | issueWithLinearPool
  | typeError
  | numericFault
  | outOfFuel
  deriving DecidableEq

instance {ε α : Type} [DecidableEq ε] [DecidableEq α] : DecidableEq (Except ε α) :=
  fun a b =>
    match a, b with
    | .ok x, .ok y =>
      if h : x = y then .isTrue (by rw [h]) else .isFalse (by intro hc; cases hc; exact h rfl)
    | .error x, .error y =>
      if h : x = y then .isTrue (by rw [h]) else .isFalse (by intro hc; cases hc; exact h rfl)
    | .ok _, .error _ => .isFalse (by intro hc; cases hc)
    | .error _, .ok _ => .isFalse (by intro hc; cases hc)

/-- `BigNumber.div`: truncating division, faulting on a zero divisor. -/
def bigNumberDiv (a b : Nat) : Except BuildError Nat :=
  if b = 0 then .error .numericFault else .ok (a / b)

/-- The successful value of the two-step child-proportion computation of
`buildGraphFromPool` (lines 185-190):
`proportion = balance * 10^18 / tokenTotal`,
`finalProportion = proportion * proportionOfParent / 10^18`. -/
def childFinalProportion (parsedBalance tokenTotal proportionOfParent : Nat) : Nat :=
  let proportion := parsedBalance * WeiPerEtherN / tokenTotal
  proportion * proportionOfParent / WeiPerEtherN

/-- `PoolGraph.getTokenTotal`: sum of parsed balances, ignoring the entry at
the index of the pool's own address (the phantom BPT balance).  The `forEach`
accumulation is expressed by recursion over the balance list with a running
position. -/
def getTokenTotalGo (bptIndex : Nat) : Nat → List Nat → Nat
  | _, [] => 0
  | i, balance :: rest =>
    (if bptIndex ≠ i then balance else 0) + getTokenTotalGo bptIndex (i + 1) rest

/-- `PoolGraph.getTokenTotal` (lines 88-99). -/
def getTokenTotal (pool : Pool) : Nat :=
  let bptIndex := pool.tokensList.indexOf pool.address
  getTokenTotalGo bptIndex 0 (parsedBalances pool)

/-- The non-self tokens of a pool: those the child loop of
`buildGraphFromPool` does not `continue` over. -/
def nonSelfTokens (pool : Pool) : List PoolToken :=
  pool.tokens.filter (fun t => t.address != pool.address)

/-- The list of `finalProportion` values computed for a pool's non-self
children by `buildGraphFromPool` (non-linear branch). -/
def childProportions (pool : Pool) (proportionOfParent : Nat) : List Nat :=
  (nonSelfTokens pool).map
    (fun t => childFinalProportion t.parsedBalance (getTokenTotal pool) proportionOfParent)

/-- The external environment: the `Findable` pool repository (`find` /
`findBy('address', ...)`) and the spot-price collaborator
(`Pools.wrap(pool, network).calcSpotPrice(tokenIn, tokenOut)` with
`tokenOut = pool.address`). -/
structure Env where
  findById : String → Option Pool
  findByAddress : String → Option Pool
  calcSpotPrice : Pool → String → String

/-- The mutable state threaded through graph construction: the node heap and
the ordered log of addresses queried via `findBy('address', ...)`. -/
structure BuildSt where
  heap : List Node
  lookups : List String
  deriving DecidableEq

/-- `PoolGraph.createInputTokenNode` (lines 298-323): allocates an `Input`
leaf node and advances the index counter.  Returns the new heap, the handle
of the node and the advanced counter. -/
def createInputTokenNode (heap : List Node) (nodeIndex : Nat) (address : String)
    (decimals : Nat) (parent : Option Nat) (proportionOfParent : Nat) :
    List Node × Nat × Nat :=
  (heap ++
    [{ address := address, id := "N/A", type := "Input", children := [],
       marked := false, joinAction := "input", exitAction := "output",
       index := toString nodeIndex, parent := parent,
       proportionOfParent := proportionOfParent, isLeaf := true,
       spotPrices := [], decimals := decimals }],
   heap.length, nodeIndex + 1)

/-- The `pool.tokens.forEach` of `buildGraphFromPool` (lines 144-155):
collects the spot price of every non-self token against the pool address and
records the BPT token's decimals (`token.decimals ? token.decimals : 18`, a
JS truthiness test, so decimals `0` also falls back to 18). -/
def collectSpotPrices (env : Env) (pool : Pool) : List (String × String) × Nat :=
  pool.tokens.foldl
    (fun (acc : List (String × String) × Nat) token =>
      if token.address == pool.address then
        (acc.1,
         match token.decimals with
         | some d => if d ≠ 0 then d else 18
         | none => 18)
      else
        (acc.1 ++ [(token.address, env.calcSpotPrice pool token.address)], acc.2))
    ([], 18)

/-- `PoolGraph.createWrappedTokenNode` (lines 242-296).  The wrapped token's
address is `tokensList[wrappedIndex]` (out-of-range indexing yields JS
`undefined`, modelled as `""`); reading `tokens[mainIndex].decimals` with an
out-of-range `mainIndex` is a JS `TypeError`. -/
def createWrappedTokenNode (st : BuildSt) (linearPool : Pool) (nodeIndex : Nat)
    (parent : Option Nat) (proportionOfParent : Nat) :
    BuildSt × Except BuildError (Nat × Nat) :=
  match linearPool.wrappedIndex, linearPool.mainIndex with
  | some wrappedIndex, some mainIndex =>
    let joinAction :=
      if linearPool.poolType == "ERC4626Linear" then "wrapERC4626"
      else "wrapAaveDynamicToken"
    let exitAction :=
      if linearPool.poolType == "ERC4626Linear" then "unwrapERC4626"
      else "unwrapAaveStaticToken"
    let wrappedTokenNode : Node :=
      { type := "WrappedToken",
        address := (linearPool.tokensList.get? wrappedIndex).getD "",
        id := "N/A", children := [], marked := false,
        joinAction := joinAction, exitAction := exitAction,
        index := toString nodeIndex, parent := parent,
        proportionOfParent := proportionOfParent, isLeaf := false,
        spotPrices := [], decimals := 18 }
    let wH := st.heap.length
    let heap1 := st.heap ++ [wrappedTokenNode]
    match linearPool.tokens.get? mainIndex with
    | none => ({ st with heap := heap1 }, .error .typeError)
    | some mainTok =>
      let mainTokenDecimals := mainTok.decimals.getD 18
      let r := createInputTokenNode heap1 (nodeIndex + 1) mainTok.address
        mainTokenDecimals (some wH) proportionOfParent
      let wn := getN r.1 wH
      ({ st with heap := r.1.set wH { wn with children := [r.2.1] } },
       .ok (wH, r.2.2))
  | _, _ => (st, .error .issueWithLinearPool)

/-- `PoolGraph.createLinearNodeChildren` (lines 205-240).  `tokensList[mainIndex]`
equals `tokens[mainIndex].address` because `tokensList` is derived from the
token records. -/
def createLinearNodeChildren (wrapMainTokens : Bool) (st : BuildSt)
    (linearPoolH : Nat) (nodeIndex : Nat) (linearPool : Pool) :
    BuildSt × Except BuildError (Nat × Nat) :=
  if wrapMainTokens then
    match createWrappedTokenNode st linearPool nodeIndex (some linearPoolH)
        (getN st.heap linearPoolH).proportionOfParent with
    | (st2, .error e) => (st2, .error e)
    | (st2, .ok (wrappedH, ni)) =>
      let ln := getN st2.heap linearPoolH
      ({ st2 with
          heap := st2.heap.set linearPoolH { ln with children := ln.children ++ [wrappedH] } },
       .ok (linearPoolH, ni))
  else
    match linearPool.mainIndex with
    | none => (st, .error .issueWithLinearPool)
    | some mainIndex =>
      match linearPool.tokens.get? mainIndex with
      | none => (st, .error .typeError)
      | some mainTok =>
        let mainTokenDecimals := mainTok.decimals.getD 18
        let r := createInputTokenNode st.heap nodeIndex mainTok.address
          mainTokenDecimals (some linearPoolH)
          (getN st.heap linearPoolH).proportionOfParent
        let ln := getN r.1 linearPoolH
        ({ st with heap := r.1.set linearPoolH { ln with children := ln.children ++ [r.2.1] } },
         .ok (linearPoolH, r.2.2))

mutual

/-- `PoolGraph.buildGraphFromPool` (lines 101-203).  Returns the updated
state together with the handle of the constructed node and the advanced
index counter.  Recursion over the unknown pool graph is bounded by fuel. -/
def buildGraphFromPool (env : Env) (wrapMainTokens : Bool) :
    Nat → BuildSt → String → Nat → Option Nat → Nat →
    BuildSt × Except BuildError (Nat × Nat)
  | 0, st, _, _, _, _ => (st, .error .outOfFuel)
  | fuel + 1, st, address, nodeIndex, parent, proportionOfParent =>
    let st1 : BuildSt := { st with lookups := st.lookups ++ [address] }
    match env.findByAddress address with
    | none =>
      match parent with
      | none =>
        -- pool not found by address and it is the root: throw POOL_DOESNT_EXIST
        (st1, .error .poolNotFound)
      | some parentH =>
        -- leaf-token fallback: `await this.pools.findBy('address', parent.address) as Pool`
        let parentAddress := (getN st1.heap parentH).address
        let st2 : BuildSt := { st1 with lookups := st1.lookups ++ [parentAddress] }
        match env.findByAddress parentAddress with
        | none =>
          -- the unchecked cast makes the subsequent `.tokens` access a TypeError
          (st2, .error .typeError)
        | some parentPool =>
          match parentPool.tokens.get? (parentPool.tokensList.indexOf address) with
          | none => (st2, .error .typeError)
          | some tok =>
            let leafTokenDecimals := tok.decimals.getD 18
            let r := createInputTokenNode st2.heap nodeIndex address
              leafTokenDecimals (some parentH) proportionOfParent
            ({ st2 with heap := r.1 }, .ok (r.2.1, r.2.2))
    | some pool =>
      match joinActions pool.poolType, exitActions pool.poolType with
      | some joinAction, some exitAction =>
        let tokenTotal := getTokenTotal pool
        let sp := collectSpotPrices env pool
        let poolNode : Node :=
          { address := pool.address, id := pool.id, type := pool.poolType,
            joinAction := joinAction, exitAction := exitAction, children := [],
            marked := false, index := toString nodeIndex, parent := parent,
            proportionOfParent := proportionOfParent, isLeaf := false,
            spotPrices := sp.1, decimals := sp.2 }
        let poolH := st1.heap.length
        let st2 : BuildSt := { st1 with heap := st1.heap ++ [poolNode] }
        if strIncludes pool.poolType "Linear" then
          createLinearNodeChildren wrapMainTokens st2 poolH (nodeIndex + 1) pool
        else
          buildChildren env wrapMainTokens fuel st2 pool.tokens pool poolH
            tokenTotal proportionOfParent (nodeIndex + 1)
      | _, _ => (st1, .error .unsupportedPoolType)
termination_by structural fuel _ _ _ _ _ => fuel

/-- The `for` loop of `buildGraphFromPool` over `pool.tokens` (lines 181-200):
skip the pool's own token, compute the child proportion, recursively expand
the child and push its handle onto the pool node's children. -/
def buildChildren (env : Env) (wrapMainTokens : Bool) :
    Nat → BuildSt → List PoolToken → Pool → Nat → Nat → Nat → Nat →
    BuildSt × Except BuildError (Nat × Nat)
  | 0, st, _, _, _, _, _, _ => (st, .error .outOfFuel)
  | _ + 1, st, [], _, poolH, _, _, nodeIndex => (st, .ok (poolH, nodeIndex))
  | fuel + 1, st, t :: ts, pool, poolH, tokenTotal, proportionOfParent, nodeIndex =>
    if t.address == pool.address then
      -- ignore any phantomBpt tokens
      buildChildren env wrapMainTokens fuel st ts pool poolH tokenTotal
        proportionOfParent nodeIndex
    else
      match bigNumberDiv (t.parsedBalance * WeiPerEtherN) tokenTotal with
      | .error e => (st, .error e)
      | .ok proportion =>
        match bigNumberDiv (proportion * proportionOfParent) WeiPerEtherN with
        | .error e => (st, .error e)
        | .ok finalProportion =>
          match buildGraphFromPool env wrapMainTokens fuel st t.address nodeIndex
              (some poolH) finalProportion with
          | (st2, .error e) => (st2, .error e)
          | (st2, .ok (childH, ni)) =>
            let pn := getN st2.heap poolH
            let st3 : BuildSt :=
              { st2 with heap := st2.heap.set poolH { pn with children := pn.children ++ [childH] } }
            buildChildren env wrapMainTokens fuel st3 ts pool poolH tokenTotal
              proportionOfParent ni
termination_by structural fuel _ _ _ _ _ _ _ => fuel

end

/-- `PoolGraph.buildGraphFromRootPool` (lines 71-86). -/
def buildGraphFromRootPool (env : Env) (fuel : Nat) (poolId : String)
    (wrapMainTokens : Bool) : BuildSt × Except BuildError Nat :=
  match env.findById poolId with
  | none => ({ heap := [], lookups := [] }, .error .poolNotFound)
  | some rootPool =>
    match buildGraphFromPool env wrapMainTokens fuel { heap := [], lookups := [] }
        rootPool.address 0 none WeiPerEtherN with
    | (st, .error e) => (st, .error e)
    | (st, .ok (h, _)) => (st, .ok h)

/-- One iteration batch of `orderByBfs`'s inner `forEach` (lines 334-339):
push every not-yet-marked child, marking it. -/
def markChildren (heap : List Node) (cs : List Nat) (queue : List Nat) :
    List Node × List Nat :=
  cs.foldl
    (fun (p : List Node × List Nat) c =>
      let cn := getN p.1 c
      if cn.marked then p
      else (p.1.set c { cn with marked := true }, p.2 ++ [c]))
    (heap, queue)

/-- The `while` loop of `orderByBfs` (lines 331-340), bounded by fuel. -/
def bfsLoop : Nat → List Node → List Nat → List Nat → List Node × List Nat
  | 0, heap, _, ordered => (heap, ordered)
  | fuel + 1, heap, queue, ordered =>
    match queue with
    | [] => (heap, ordered)
    | h :: rest =>
      let p := markChildren heap (getN heap h).children rest
      bfsLoop fuel p.1 p.2 (ordered ++ [h])

/-- `PoolGraph.orderByBfs` (lines 325-342): mark and enqueue the root, then
run the queue.  `heap.length + 1` fuel always suffices because every
iteration dequeues a node and only unmarked nodes are ever enqueued. -/
def orderByBfs (heap : List Node) (root : Nat) : List Node × List Nat :=
  let rn := getN heap root
  let heap1 := heap.set root { rn with marked := true }
  bfsLoop (heap.length + 1) heap1 [root] []

/-- One iteration of the `while (parentNode !== undefined)` loop of
`getNodesToRoot` (lines 388-407): copy the current ancestor with zeroed
proportion and stamped index; on the first iteration
(`index - 1 === startingIndex`) deactivate the siblings of the input node —
`.map((n) => { n.index = '0'; return n; })` mutates the original children —
and rewrite the copy's children.  Returns the updated heap and the handle of
the newly allocated ancestor copy. -/
def nodesToRootStep (startingIndex firstH : Nat) (heap : List Node)
    (index parentH : Nat) : List Node × Nat :=
  let node0 := getN heap parentH
  -- const node = { ...parentNode }; zero the proportion, stamp the index
  let node1 : Node := { node0 with proportionOfParent := 0, index := toString index }
  if index - 1 == startingIndex then
    let childrenWithoutRoot := node1.children.filter
      (fun c => strToLower (getN heap c).address != strToLower (getN heap firstH).address)
    let heap2 := childrenWithoutRoot.foldl
      (fun hp c => hp.set c { getN hp c with index := "0" }) heap
    let node2 : Node := { node1 with children := childrenWithoutRoot ++ [firstH] }
    (heap2 ++ [node2], heap2.length)
  else
    (heap ++ [node1], heap.length)

/-- The `while (parentNode !== undefined)` loop of `getNodesToRoot`
(lines 385-409), bounded by fuel.  `firstH` is `nodesToRoot[0]`;
`parentNode = parentNode.parent` reads the original ancestor's parent. -/
def nodesToRootLoop (startingIndex firstH : Nat) :
    Nat → List Node → List Nat → Nat → Option Nat → List Node × List Nat
  | 0, heap, acc, _, _ => (heap, acc)
  | _ + 1, heap, acc, _, none => (heap, acc)
  | fuel + 1, heap, acc, index, some parentH =>
    let s := nodesToRootStep startingIndex firstH heap index parentH
    nodesToRootLoop startingIndex firstH fuel s.1 (acc ++ [s.2]) (index + 1)
      (getN heap parentH).parent

/-- `PoolGraph.getNodesToRoot` (lines 345-411).  Returns the possibly-updated
heap together with the handle sequence of the root path (or the error). -/
def getNodesToRoot (heap : List Node) (orderedNodes : List Nat)
    (inputToken : String) (startingIndex : Nat) :
    List Node × Except BuildError (List Nat) :=
  match orderedNodes.getLast? with
  | none =>
    -- `orderedNodes[-1].address` on an empty list: TypeError
    (heap, .error .typeError)
  | some lastH =>
    if strToLower inputToken == strToLower (getN heap lastH).address then
      -- can't join using the root token itself
      (heap, .error .inputTokenInvalid)
    else
      match orderedNodes.find?
          (fun h => strToLower (getN heap h).address == strToLower inputToken) with
      | none => (heap, .error .inputTokenInvalid)
      | some inputNode =>
        let inputN := getN heap inputNode
        if inputN.joinAction != "input" then
          -- create an input node carrying 100% of the token amount
          let r := createInputTokenNode heap startingIndex inputToken
            inputN.decimals inputN.parent WeiPerEtherN
          let p := nodesToRootLoop startingIndex r.2.1 (heap.length + 1) r.1
            [r.2.1] (startingIndex + 1) inputN.parent
          (p.1, .ok p.2)
        else
          -- joining with a leaf token: a modified copy is built but the
          -- ORIGINAL node is pushed (`nodesToRoot.push(inputNode)`)
          let _inputTokenNode : Node :=
            { inputN with proportionOfParent := WeiPerEtherN, index := "0" }
          let p := nodesToRootLoop startingIndex inputNode (heap.length + 1) heap
            [inputNode] (startingIndex + 1) inputN.parent
          (p.1, .ok p.2)

/-- `PoolGraph.getLeafAddresses` (lines 414-416). -/
def getLeafAddresses (heap : List Node) (nodes : List Nat) : List String :=
  (nodes.filter (fun h => (getN heap h).isLeaf)).map (fun h => (getN heap h).address)

/-! ### Concrete environments used by witnesses and counterexamples

`envA` is a consistent two-level pool: a weighted root pool over two plain
leaf tokens with balances 100 and 300. -/

/-- A concrete weighted root pool over two leaf tokens. -/
def rootPoolA : Pool :=
  { id := "rootid", address := "0xroot", poolType := "Weighted",
    tokens := [{ address := "0xaaa", decimals := some 18, parsedBalance := 100 },
               { address := "0xbbb", decimals := some 18, parsedBalance := 300 }],
    wrappedIndex := none, mainIndex := none }

/-- A consistent repository environment serving `rootPoolA`. -/
def envA : Env :=
  { findById := fun s => if s == "rootid" then some rootPoolA else none,
    findByAddress := fun s => if s == "0xroot" then some rootPoolA else none,
    calcSpotPrice := fun _ _ => "1" }

/-- The tree built from `rootPoolA` (root handle 0, leaves 1 and 2). -/
def builtA : BuildSt × Except BuildError Nat :=
  buildGraphFromRootPool envA 10 "rootid" false

/-- The heap of the built `envA` tree. -/
def heapA : List Node := builtA.1.heap

/-- The BFS traversal of the built `envA` tree. -/
def bfsA : List Node × List Nat := orderByBfs heapA 0

/-- A root pool record whose id resolves but whose address field is `"0xX"`. -/
def poolX : Pool :=
  { id := "rid", address := "0xX", poolType := "Weighted", tokens := [],
    wrappedIndex := none, mainIndex := none }

/-- A pool record served under key `"0xX"` whose own address field is `"0xY"`:
the repository collaborator gives no consistency guarantee between the lookup
key and the record's address field. -/
def poolY : Pool :=
  { id := "yid", address := "0xY", poolType := "Weighted",
    tokens := [{ address := "0xC", decimals := some 18, parsedBalance := 5 }],
    wrappedIndex := none, mainIndex := none }

/-- An environment in which the leaf-token fallback's parent-pool lookup
fails: the child token `"0xC"` has no record and the parent node's address
`"0xY"` does not resolve either. -/
def envB : Env :=
  { findById := fun s => if s == "rid" then some poolX else none,
    findByAddress := fun s => if s == "0xX" then some poolY else none,
    calcSpotPrice := fun _ _ => "1" }

/-- A pool whose category is in neither action table. -/
def poolU : Pool :=
  { id := "uid", address := "0xU", poolType := "Gyro2", tokens := [],
    wrappedIndex := none, mainIndex := none }

/-- An environment serving only the unsupported pool `poolU`. -/
def envU : Env :=
  { findById := fun _ => none,
    findByAddress := fun s => if s == "0xU" then some poolU else none,
    calcSpotPrice := fun _ _ => "1" }

/-- A weighted pool whose every (non-self) parsed balance is zero. -/
def poolZ : Pool :=
  { id := "zid", address := "0xZ", poolType := "Weighted",
    tokens := [{ address := "0xza", decimals := some 18, parsedBalance := 0 },
               { address := "0xzb", decimals := some 18, parsedBalance := 0 }],
    wrappedIndex := none, mainIndex := none }

/-- An environment serving only the all-zero pool `poolZ`. -/
def envZ : Env :=
  { findById := fun s => if s == "zid" then some poolZ else none,
    findByAddress := fun s => if s == "0xZ" then some poolZ else none,
    calcSpotPrice := fun _ _ => "1" }

/-- A diamond-shaped heap with a shared child: handles 1 and 2 both list
handle 3 among their children, the shape the traversal's uniqueness clause
singles out.  All nodes start unmarked. -/
def heapS : List Node :=
  [{ address := "0xs0", id := "s0", joinAction := "joinPool",
     exitAction := "exitPool", type := "Weighted", children := [1, 2],
     marked := false, index := "0", proportionOfParent := WeiPerEtherN,
     parent := none, isLeaf := false, spotPrices := [], decimals := 18 },
   { address := "0xs1", id := "s1", joinAction := "joinPool",
     exitAction := "exitPool", type := "Weighted", children := [3],
     marked := false, index := "1", proportionOfParent := 0,
     parent := some 0, isLeaf := false, spotPrices := [], decimals := 18 },
   { address := "0xs2", id := "s2", joinAction := "joinPool",
     exitAction := "exitPool", type := "Weighted", children := [3],
     marked := false, index := "2", proportionOfParent := 0,
     parent := some 0, isLeaf := false, spotPrices := [], decimals := 18 },
   { address := "0xs3", id := "s3", joinAction := "input",
     exitAction := "output", type := "Input", children := [],
     marked := false, index := "3", proportionOfParent := 0,
     parent := some 1, isLeaf := true, spotPrices := [], decimals := 18 }]

/-- `heap'` differs from `heap` at most by `marked` flags turned on. -/
def OnlyMarks (heap heap' : List Node) : Prop :=
  ∀ h : Nat,
    { getN heap' h with marked := false } = { getN heap h with marked := false } ∧
      ((getN heap h).marked = true → (getN heap' h).marked = true)

/-- Invariant: `hp` extends `heap` and differs on the original handles at
most by `index` fields overwritten with `"0"`. -/
def FrameInv (heap hp : List Node) : Prop :=
  heap.length ≤ hp.length ∧
    ∀ h : Nat, h < heap.length →
      getN hp h = getN heap h ∨ getN hp h = { getN heap h with index := "0" }

/-- Handle list of a node's children (reads the shared heap). -/
def childHandles (heap : List Node) (h : Nat) : List Nat := (getN heap h).children

/-- The `d`-th level of the subtree rooted at `root`: level 0 is the root,
level `d+1` is the concatenation of the children of level `d` in order. -/
def level (heap : List Node) (root : Nat) : Nat → List Nat
  | 0 => [root]
  | d + 1 => (level heap root d).flatMap (childHandles heap)

/-- The breadth-first order up to depth `d`: the levels concatenated.  By
construction this sequence is the root, then its children in declared order,
then the grandchildren, level by level. -/
def bfsUpTo (heap : List Node) (root : Nat) (d : Nat) : List Nat :=
  (List.range d).flatMap (level heap root)

/-- Reachability from the root along `children` edges. -/
inductive Reaches (heap : List Node) (root : Nat) : Nat → Prop
  | refl : Reaches heap root root
  | step {h c : Nat} : Reaches heap root h → c ∈ childHandles heap h →
      Reaches heap root c

/-- Well-formedness of a built tree for breadth-first traversal, as
established by `buildGraphFromRootPool`: the level decomposition terminates
within the heap size, never repeats a handle (each node has one parent and no
sharing), stays within the heap, and is entirely unmarked. -/
def WFBfs (heap : List Node) (root : Nat) : Prop :=
  level heap root heap.length = [] ∧
    (bfsUpTo heap root (heap.length + 1)).Nodup ∧
    (∀ h ∈ bfsUpTo heap root (heap.length + 1), h < heap.length) ∧
    (∀ h ∈ bfsUpTo heap root (heap.length + 1), (getN heap h).marked = false)

/-- `heap'` agrees with `heap` except that exactly the handles in `S` are
marked. -/
def MarkedAs (heap heap' : List Node) (S : List Nat) : Prop :=
  ∀ h : Nat,
    heap'.get? h =
      if h ∈ S then (heap.get? h).map (fun n => { n with marked := true })
      else heap.get? h

/-!
## Theorems
-/

/-- Claim C1, counterexample.  On the built `envA` tree with its BFS-ordered
node list (root handle 0 first), calling `getNodesToRoot` with the root's own
address does NOT fail with `InvalidInputToken`: it succeeds, returning a
one-element path consisting of a freshly synthesized input node.  The code's
rejection check reads `orderedNodes[orderedNodes.length - 1]`, the LAST
element of the supplied list, which is the root only when the list is in
reversed BFS order. -/
theorem c1_counterexample :
    bfsA.2 = [0, 1, 2] ∧ (getN bfsA.1 0).address = "0xroot" ∧
      (getNodesToRoot bfsA.1 bfsA.2 "0xroot" 0).2 = .ok [3] := by
  decide

/-- Claim C1, amended: `getNodesToRoot` fails with `InvalidInputToken`
whenever the input token address case-insensitively equals the address of the
LAST node of the supplied list (the root when the caller supplies the
reversed BFS order), regardless of tree and startingIndex; the heap is left
untouched. -/
theorem c1_amended_last_element_rejected (heap : List Node)
    (orderedNodes : List Nat) (inputToken : String) (startingIndex lastH : Nat)
    (hlast : orderedNodes.getLast? = some lastH)
    (haddr : strToLower inputToken = strToLower (getN heap lastH).address) :
    getNodesToRoot heap orderedNodes inputToken startingIndex =
      (heap, .error .inputTokenInvalid) := by
  unfold getNodesToRoot
  rw [hlast]
  simp [haddr]

/-- Witness for the amended C1 theorem: the reversed BFS list of the built
`envA` tree with the root's address is rejected. -/
theorem c1_amended_witness :
    ([2, 1, 0] : List Nat).getLast? = some 0 ∧
      strToLower "0xroot" = strToLower (getN bfsA.1 0).address ∧
      getNodesToRoot bfsA.1 [2, 1, 0] "0xroot" 0 = (bfsA.1, .error .inputTokenInvalid) :=
  ⟨rfl, by decide,
    c1_amended_last_element_rejected bfsA.1 [2, 1, 0] "0xroot" 0 0 rfl (by decide)⟩

/-- Claim C3, counterexample.  `getNodesToRoot` mutates a node of the
original built tree: on the `envA` tree with input token `"0xaaa"` (leaf
handle 1), the sibling leaf (handle 2, a child of the root that does not
match the input address) has its `index` field overwritten from `"2"` to
`"0"` by the `.map((n) => { n.index = '0'; return n; })` over the shared
child objects. -/
theorem c3_counterexample :
    (getN bfsA.1 2).index = "2" ∧
      (getN (getNodesToRoot bfsA.1 bfsA.2 "0xaaa" 0).1 2).index = "0" := by
  decide

/-- Claim C4 (code bug evidence).  On the built `envA` tree, the input token
`"0xaaa"` matches the Input leaf at handle 1; the returned path reuses that
original leaf as its first element, but its `proportionOfParent` is still the
build-time value 0.25·10^18 (not 10^18) and its `index` is still `"1"` (not
`"0"`): the modified copy `inputTokenNode` is discarded because the code
pushes `inputNode` instead. -/
theorem c4_code_behavior :
    (getN bfsA.1 1).joinAction = "input" ∧
      (getNodesToRoot bfsA.1 bfsA.2 "0xaaa" 0).2 = .ok [1, 3] ∧
      (getN (getNodesToRoot bfsA.1 bfsA.2 "0xaaa" 0).1 1).proportionOfParent =
        250000000000000000 ∧
      (getN (getNodesToRoot bfsA.1 bfsA.2 "0xaaa" 0).1 1).proportionOfParent ≠
        WeiPerEtherN ∧
      (getN (getNodesToRoot bfsA.1 bfsA.2 "0xaaa" 0).1 1).index = "1" := by
  decide

/-- Claim C5, counterexample.  In `envB` the root resolves but its child
token does not, and the parent pool's own address lookup also fails;
`buildGraphFromRootPool` then aborts with a TypeError (reading `.tokens` of
`undefined` through the unchecked `as Pool` cast), not with `PoolNotFound`. -/
theorem c5_counterexample :
    (buildGraphFromRootPool envB 10 "rid" false).2 = .error .typeError ∧
      (buildGraphFromRootPool envB 10 "rid" false).2 ≠ .error .poolNotFound := by
  decide

/-- Claim C7, counterexample.  `orderByBfs` is not side-effect-free: on the
built `envA` tree it flips the `marked` field of the leaf at handle 1 from
`false` to `true`. -/
theorem c7_counterexample :
    (getN heapA 1).marked = false ∧ (getN (orderByBfs heapA 0).1 1).marked = true := by
  decide

/-- Claim C8 (confirmed).  If the address resolves to a pool whose category
is missing from the join-action table or the exit-action table, the build
fails with `UnsupportedPoolType` immediately: the returned state records only
the pool's own lookup (no child lookup is issued) and the heap is unchanged
(no child is expanded). -/
theorem c8_unsupported_before_children (env : Env) (wrap : Bool) (fuel : Nat)
    (st : BuildSt) (address : String) (nodeIndex : Nat) (parent : Option Nat)
    (proportionOfParent : Nat) (pool : Pool)
    (hfind : env.findByAddress address = some pool)
    (hmiss : joinActions pool.poolType = none ∨ exitActions pool.poolType = none) :
    buildGraphFromPool env wrap (fuel + 1) st address nodeIndex parent proportionOfParent =
      ({ st with lookups := st.lookups ++ [address] }, .error .unsupportedPoolType) := by
  cases hj : joinActions pool.poolType <;> cases he : exitActions pool.poolType <;>
    simp_all [buildGraphFromPool, hfind]

/-- Witness for C8: the unsupported pool `poolU` fails before any child
lookup, leaving exactly one lookup in the log and an empty heap. -/
theorem c8_witness :
    envU.findByAddress "0xU" = some poolU ∧
      joinActions poolU.poolType = none ∧
      buildGraphFromPool envU false 1 { heap := [], lookups := [] } "0xU" 0 none
          WeiPerEtherN =
        ({ heap := [], lookups := ["0xU"] }, .error .unsupportedPoolType) :=
  ⟨rfl, rfl,
    c8_unsupported_before_children envU false 0 { heap := [], lookups := [] }
      "0xU" 0 none WeiPerEtherN poolU rfl (Or.inl rfl)⟩

/-! ### Token-total and proportion arithmetic (towards C2 and C9) -/

theorem getTokenTotalGo_of_lt {bptIndex : Nat} (bs : List Nat) {i : Nat}
    (h : bptIndex < i) : getTokenTotalGo bptIndex i bs = bs.sum := by
  induction bs generalizing i with
  | nil => rfl
  | cons b rest ih =>
    have hne : bptIndex ≠ i := Nat.ne_of_lt h
    simp [getTokenTotalGo, hne, ih (Nat.lt_succ_of_lt h)]

theorem getTokenTotalGo_shift (bs : List Nat) (bptIndex i : Nat) :
    getTokenTotalGo (bptIndex + 1) (i + 1) bs = getTokenTotalGo bptIndex i bs := by
  induction bs generalizing i with
  | nil => rfl
  | cons b rest ih =>
    by_cases hbi : bptIndex = i
    · subst hbi
      simp [getTokenTotalGo, ih]
    · simp [getTokenTotalGo, hbi, ih, Nat.succ_ne_succ]

/-- With at most one occurrence of `addr` in the address list, the
`getTokenTotal` accumulation equals the sum of the balances of the tokens the
child loop does not skip. -/
theorem tokenTotalGo_eq_nonSelf_sum (l : List PoolToken) (addr : String)
    (hcount : (l.map (·.address)).count addr ≤ 1) :
    getTokenTotalGo ((l.map (·.address)).indexOf addr) 0 (l.map (·.parsedBalance)) =
      ((l.filter (fun t => t.address != addr)).map (·.parsedBalance)).sum := by
  induction l with
  | nil => rfl
  | cons t ts ih =>
    by_cases ht : t.address = addr
    · have hcnt0 : (ts.map (·.address)).count addr = 0 := by
        have h := hcount
        simp only [List.map_cons, List.count_cons, ht, beq_self_eq_true, if_true] at h
        omega
      have hnot : addr ∉ ts.map (·.address) := by
        simpa [List.count_eq_zero] using hcnt0
      have hfilter : ts.filter (fun t => t.address != addr) = ts := by
        apply List.filter_eq_self.2
        intro a ha
        simp only [bne_iff_ne, ne_eq]
        intro hc
        exact hnot (List.mem_map.2 ⟨a, ha, hc⟩)
      simp [List.indexOf_cons_eq _ ht.symm, getTokenTotalGo,
        getTokenTotalGo_of_lt _ Nat.zero_lt_one, List.filter_cons, ht, hfilter]
    · have hcount' : (ts.map (·.address)).count addr ≤ 1 := by
        have h := hcount
        simp only [List.map_cons, List.count_cons] at h
        omega
      have hne : t.address ≠ addr := ht
      simp [List.indexOf_cons_ne _ hne, getTokenTotalGo, Nat.succ_ne_zero,
        getTokenTotalGo_shift, List.filter_cons, ht, ih hcount']

/-- `getTokenTotal` equals the sum of the non-self parsed balances when the
pool's own address occurs at most once in its token list. -/
theorem getTokenTotal_eq_sum (pool : Pool)
    (hcount : pool.tokensList.count pool.address ≤ 1) :
    getTokenTotal pool = ((nonSelfTokens pool).map (·.parsedBalance)).sum := by
  have h := tokenTotalGo_eq_nonSelf_sum pool.tokens pool.address hcount
  simpa [getTokenTotal, Pool.tokensList, parsedBalances, nonSelfTokens] using h

theorem nat_add_div_le (a b d : Nat) (hd : 0 < d) : a / d + b / d ≤ (a + b) / d := by
  rw [Nat.le_div_iff_mul_le hd]
  calc (a / d + b / d) * d = a / d * d + b / d * d := by rw [Nat.add_mul]
    _ ≤ a + b := Nat.add_le_add (Nat.div_mul_le_self a d) (Nat.div_mul_le_self b d)

theorem sum_map_div_le (l : List Nat) (d : Nat) (hd : 0 < d) :
    (l.map (fun a => a / d)).sum ≤ l.sum / d := by
  induction l with
  | nil => simp
  | cons a rest ih =>
    simp only [List.map_cons, List.sum_cons]
    calc a / d + (rest.map (fun a => a / d)).sum ≤ a / d + rest.sum / d :=
          Nat.add_le_add_left ih _
      _ ≤ (a + rest.sum) / d := nat_add_div_le _ _ _ hd

theorem nat_lt_div_succ_mul (a d : Nat) (hd : 0 < d) : a < (a / d + 1) * d := by
  calc a = d * (a / d) + a % d := (Nat.div_add_mod a d).symm
    _ < d * (a / d) + d := Nat.add_lt_add_left (Nat.mod_lt a hd) _
    _ = (a / d + 1) * d := by ring

/-- Upper half of proportion conservation: the computed child proportions
never exceed the parent's proportion. -/
theorem childProportions_sum_le (bs : List Nat) (P : Nat)
    (hT : 0 < bs.sum) :
    (bs.map (fun b => childFinalProportion b bs.sum P)).sum ≤ P := by
  have hW : 0 < WeiPerEtherN := by decide
  have h1 : bs.map (fun b => childFinalProportion b bs.sum P) =
      (bs.map (fun b => b * WeiPerEtherN / bs.sum * P)).map (fun a => a / WeiPerEtherN) := by
    simp [childFinalProportion, List.map_map, Function.comp]
  have h3 : (bs.map (fun b => b * WeiPerEtherN / bs.sum * P)).sum =
      (bs.map (fun b => b * WeiPerEtherN / bs.sum)).sum * P :=
    List.sum_map_mul_right _ _ _
  have h5 : bs.map (fun b => b * WeiPerEtherN / bs.sum) =
      (bs.map (fun b => b * WeiPerEtherN)).map (fun a => a / bs.sum) := by
    simp [List.map_map, Function.comp]
  have h7 : (bs.map (fun b => b * WeiPerEtherN)).sum = bs.sum * WeiPerEtherN := by
    have := List.sum_map_mul_right bs (fun b => b) WeiPerEtherN
    simpa using this
  have h4 : (bs.map (fun b => b * WeiPerEtherN / bs.sum)).sum ≤ WeiPerEtherN := by
    rw [h5]
    calc ((bs.map (fun b => b * WeiPerEtherN)).map (fun a => a / bs.sum)).sum
        ≤ (bs.map (fun b => b * WeiPerEtherN)).sum / bs.sum := sum_map_div_le _ _ hT
      _ = bs.sum * WeiPerEtherN / bs.sum := by rw [h7]
      _ = WeiPerEtherN := Nat.mul_div_cancel_left _ hT
  calc (bs.map (fun b => childFinalProportion b bs.sum P)).sum
      = ((bs.map (fun b => b * WeiPerEtherN / bs.sum * P)).map (fun a => a / WeiPerEtherN)).sum := by
        rw [h1]
    _ ≤ (bs.map (fun b => b * WeiPerEtherN / bs.sum * P)).sum / WeiPerEtherN :=
        sum_map_div_le _ _ hW
    _ = (bs.map (fun b => b * WeiPerEtherN / bs.sum)).sum * P / WeiPerEtherN := by rw [h3]
    _ ≤ WeiPerEtherN * P / WeiPerEtherN :=
        Nat.div_le_div_right (Nat.mul_le_mul_right P h4)
    _ = P := Nat.mul_div_cancel_left _ hW

/-- Per-child inequality behind the lower half of proportion conservation:
each of the two truncating divisions loses less than one unit at its own
scale. -/
theorem childFinalProportion_key (b T P : Nat) (hT : 0 < T) :
    b * WeiPerEtherN * P ≤
      childFinalProportion b T P * WeiPerEtherN * T + WeiPerEtherN * T + T * P := by
  have hW : 0 < WeiPerEtherN := by decide
  show b * WeiPerEtherN * P ≤
    b * WeiPerEtherN / T * P / WeiPerEtherN * WeiPerEtherN * T + WeiPerEtherN * T + T * P
  have h1 : b * WeiPerEtherN ≤ b * WeiPerEtherN / T * T + T := by
    calc b * WeiPerEtherN ≤ (b * WeiPerEtherN / T + 1) * T :=
          Nat.le_of_lt (nat_lt_div_succ_mul _ _ hT)
      _ = b * WeiPerEtherN / T * T + T := by ring
  have h2 : b * WeiPerEtherN / T * P ≤
      b * WeiPerEtherN / T * P / WeiPerEtherN * WeiPerEtherN + WeiPerEtherN := by
    calc b * WeiPerEtherN / T * P
        ≤ (b * WeiPerEtherN / T * P / WeiPerEtherN + 1) * WeiPerEtherN :=
          Nat.le_of_lt (nat_lt_div_succ_mul _ _ hW)
      _ = b * WeiPerEtherN / T * P / WeiPerEtherN * WeiPerEtherN + WeiPerEtherN := by ring
  calc b * WeiPerEtherN * P ≤ (b * WeiPerEtherN / T * T + T) * P :=
        Nat.mul_le_mul_right P h1
    _ = (b * WeiPerEtherN / T * P) * T + T * P := by ring
    _ ≤ (b * WeiPerEtherN / T * P / WeiPerEtherN * WeiPerEtherN + WeiPerEtherN) * T + T * P :=
        Nat.add_le_add_right (Nat.mul_le_mul_right T h2) _
    _ = b * WeiPerEtherN / T * P / WeiPerEtherN * WeiPerEtherN * T + WeiPerEtherN * T + T * P := by
        ring

theorem childProportions_sum_lower_aux (bs : List Nat) (T P : Nat) (hT : 0 < T) :
    bs.sum * WeiPerEtherN * P ≤
      (bs.map (fun b => childFinalProportion b T P)).sum * WeiPerEtherN * T +
        bs.length * (WeiPerEtherN * T) + bs.length * (T * P) := by
  induction bs with
  | nil => simp
  | cons b rest ih =>
    simp only [List.sum_cons, List.map_cons, List.length_cons]
    calc (b + rest.sum) * WeiPerEtherN * P
        = b * WeiPerEtherN * P + rest.sum * WeiPerEtherN * P := by ring
      _ ≤ (childFinalProportion b T P * WeiPerEtherN * T + WeiPerEtherN * T + T * P) +
            ((rest.map (fun b => childFinalProportion b T P)).sum * WeiPerEtherN * T +
              rest.length * (WeiPerEtherN * T) + rest.length * (T * P)) :=
          Nat.add_le_add (childFinalProportion_key b T P hT) ih
      _ = (childFinalProportion b T P +
              (rest.map (fun b => childFinalProportion b T P)).sum) * WeiPerEtherN * T +
            (rest.length + 1) * (WeiPerEtherN * T) + (rest.length + 1) * (T * P) := by
          ring

/-- Lower half of proportion conservation: the rounding deficit is at most
two units per non-self child (one per truncating division). -/
theorem childProportions_sum_lower (bs : List Nat) (P : Nat)
    (hT : 0 < bs.sum) (hP : P ≤ WeiPerEtherN) :
    P ≤ (bs.map (fun b => childFinalProportion b bs.sum P)).sum + 2 * bs.length := by
  have hW : 0 < WeiPerEtherN := by decide
  have h := childProportions_sum_lower_aux bs bs.sum P hT
  have h2 : bs.length * (bs.sum * P) ≤ bs.length * (bs.sum * WeiPerEtherN) :=
    Nat.mul_le_mul_left _ (Nat.mul_le_mul_left _ hP)
  have h3 : WeiPerEtherN * bs.sum * P ≤
      WeiPerEtherN * bs.sum *
        ((bs.map (fun b => childFinalProportion b bs.sum P)).sum + 2 * bs.length) := by
    calc WeiPerEtherN * bs.sum * P = bs.sum * WeiPerEtherN * P := by ring
      _ ≤ (bs.map (fun b => childFinalProportion b bs.sum P)).sum * WeiPerEtherN * bs.sum +
            bs.length * (WeiPerEtherN * bs.sum) + bs.length * (bs.sum * P) := h
      _ ≤ (bs.map (fun b => childFinalProportion b bs.sum P)).sum * WeiPerEtherN * bs.sum +
            bs.length * (WeiPerEtherN * bs.sum) + bs.length * (bs.sum * WeiPerEtherN) := by
          exact Nat.add_le_add_left h2 _
      _ = WeiPerEtherN * bs.sum *
            ((bs.map (fun b => childFinalProportion b bs.sum P)).sum + 2 * bs.length) := by
          ring
  exact Nat.le_of_mul_le_mul_left h3 (Nat.mul_pos hW hT)

/-- Claim C2 (confirmed).  For a pool whose own address occurs at most once
in its token list, whose token total is positive and whose parent proportion
is at most 10^18, the child proportions computed by the non-linear branch of
`buildGraphFromPool` (`childProportion = bᵢ · 10^18 / tokenTotal`, then
`finalProportion = childProportion · proportionOfParent / 10^18`, integer
multiply before divide, `tokenTotal` excluding the phantom balance) sum to at
most `proportionOfParent`, with a rounding deficit of at most two integer
units per non-self child (one per truncating division). -/
theorem c2_proportion_conservation (pool : Pool) (P : Nat)
    (hcount : pool.tokensList.count pool.address ≤ 1)
    (hT : 0 < getTokenTotal pool) (hP : P ≤ WeiPerEtherN) :
    (childProportions pool P).sum ≤ P ∧
      P ≤ (childProportions pool P).sum + 2 * (nonSelfTokens pool).length := by
  have hsum := getTokenTotal_eq_sum pool hcount
  have hmap : childProportions pool P =
      ((nonSelfTokens pool).map (·.parsedBalance)).map
        (fun b => childFinalProportion b ((nonSelfTokens pool).map (·.parsedBalance)).sum P) := by
    simp [childProportions, hsum, List.map_map, Function.comp]
  have hT' : 0 < ((nonSelfTokens pool).map (·.parsedBalance)).sum := by
    rw [← hsum]; exact hT
  have hlen : (nonSelfTokens pool).length =
      ((nonSelfTokens pool).map (·.parsedBalance)).length := (List.length_map _ _).symm
  rw [hmap, hlen]
  exact ⟨childProportions_sum_le _ P hT', childProportions_sum_lower _ P hT' hP⟩

/-- Witness for C2: the concrete pool `rootPoolA` (balances 100 and 300,
total 400) with a parent proportion of 10^18. -/
theorem c2_witness :
    0 < getTokenTotal rootPoolA ∧
      (childProportions rootPoolA WeiPerEtherN).sum ≤ WeiPerEtherN ∧
      WeiPerEtherN ≤ (childProportions rootPoolA WeiPerEtherN).sum +
        2 * (nonSelfTokens rootPoolA).length :=
  ⟨by decide,
    c2_proportion_conservation rootPoolA WeiPerEtherN (by decide) (by decide) (by decide)⟩

/-! ### Division-by-zero behaviour (towards C9) -/

/-- If the token total is zero and some non-self token remains, the child
loop aborts with the division fault at the first non-self token. -/
theorem buildChildren_zero_total (env : Env) (wrap : Bool) (pool : Pool)
    (poolH P : Nat) :
    ∀ (ts : List PoolToken) (fuel : Nat) (st : BuildSt) (ni : Nat),
      ts.length ≤ fuel →
      (∃ t ∈ ts, t.address ≠ pool.address) →
      (buildChildren env wrap fuel st ts pool poolH 0 P ni).2 = .error .numericFault := by
  intro ts
  induction ts with
  | nil =>
    intro fuel st ni _ hex
    rcases hex with ⟨t, ht, _⟩
    cases ht
  | cons t ts ih =>
    intro fuel st ni hlen hex
    cases fuel with
    | zero => simp only [List.length_cons] at hlen; omega
    | succ fuel =>
      by_cases hself : (t.address == pool.address) = true
      · have hself' : t.address = pool.address := by simpa using hself
        have hex' : ∃ u ∈ ts, u.address ≠ pool.address := by
          rcases hex with ⟨u, hu, hne⟩
          rcases List.mem_cons.1 hu with h | h
          · cases h; exact absurd hself' hne
          · exact ⟨u, h, hne⟩
        simp only [buildChildren, hself, if_true]
        exact ih fuel st ni (by simpa using Nat.le_of_succ_le_succ (by simpa using hlen)) hex'
      · simp [buildChildren, hself, bigNumberDiv]

/-- Claim C9 (confirmed).  The two child-proportion divisions are modelled by
`bigNumberDiv`, which succeeds exactly when its divisor is positive (so under
the precondition `0 < tokenTotal` the division-by-zero branch is
unreachable); and for a resolvable, supported, non-linear pool with at least
one non-self token whose non-self parsed balances are all zero (hence
`tokenTotal = 0`), the build aborts with the division fault instead of
returning a tree. -/
theorem c9_divisions_need_positive_total (env : Env) (wrap : Bool) (fuel : Nat)
    (st : BuildSt) (address : String) (nodeIndex : Nat) (parent : Option Nat)
    (P : Nat) (pool : Pool) (ja ea : String)
    (hfind : env.findByAddress address = some pool)
    (hja : joinActions pool.poolType = some ja)
    (hea : exitActions pool.poolType = some ea)
    (hlin : strIncludes pool.poolType "Linear" = false)
    (hlen : pool.tokens.length ≤ fuel)
    (hcount : pool.tokensList.count pool.address ≤ 1)
    (hex : ∃ t ∈ pool.tokens, t.address ≠ pool.address)
    (hzero : ∀ t ∈ pool.tokens, t.address ≠ pool.address → t.parsedBalance = 0) :
    (∀ a T, bigNumberDiv a T = .ok (a / T) ↔ 0 < T) ∧
      (buildGraphFromPool env wrap (fuel + 1) st address nodeIndex parent P).2 =
        .error .numericFault := by
  constructor
  · intro a T
    constructor
    · intro h
      rcases Nat.eq_zero_or_pos T with hT | hT
      · simp [bigNumberDiv, hT] at h
      · exact hT
    · intro hT
      simp [bigNumberDiv, Nat.pos_iff_ne_zero.1 hT]
  · have hT0 : getTokenTotal pool = 0 := by
      rw [getTokenTotal_eq_sum pool hcount]
      apply List.sum_eq_zero
      intro x hx
      rcases List.mem_map.1 hx with ⟨t, ht, rfl⟩
      rcases List.mem_filter.1 ht with ⟨htmem, htne⟩
      exact hzero t htmem (by simpa using htne)
    simp only [buildGraphFromPool, hfind, hja, hea, hlin, hT0, Bool.false_eq_true,
      if_false]
    exact buildChildren_zero_total env wrap pool _ P pool.tokens fuel _ _ hlen hex

/-- Witness for C9: the all-zero two-token pool `poolZ` aborts with the
division fault. -/
theorem c9_witness :
    (∃ t ∈ poolZ.tokens, t.address ≠ poolZ.address) ∧
      (buildGraphFromPool envZ false 11 { heap := [], lookups := [] } "0xZ" 0 none
          WeiPerEtherN).2 = .error .numericFault :=
  ⟨by decide,
    (c9_divisions_need_positive_total envZ false 10 { heap := [], lookups := [] }
        "0xZ" 0 none WeiPerEtherN poolZ "joinPool" "exitPool" rfl rfl rfl rfl
        (by decide) (by decide) (by decide) (by decide)).2⟩

/-! ### Where `PoolNotFound` can arise (towards C5) -/

theorem createWrappedTokenNode_not_poolNotFound (st : BuildSt) (p : Pool)
    (ni : Nat) (par : Option Nat) (P : Nat) :
    (createWrappedTokenNode st p ni par P).2 ≠ .error .poolNotFound := by
  unfold createWrappedTokenNode
  split
  · rename_i wi mi hw hm
    cases hg : p.tokens.get? mi <;> simp [hg]
  · simp

theorem createLinearNodeChildren_not_poolNotFound (wrap : Bool) (st : BuildSt)
    (lH ni : Nat) (p : Pool) :
    (createLinearNodeChildren wrap st lH ni p).2 ≠ .error .poolNotFound := by
  cases wrap with
  | true =>
    unfold createLinearNodeChildren
    rw [if_pos rfl]
    have h := createWrappedTokenNode_not_poolNotFound st p ni (some lH)
      (getN st.heap lH).proportionOfParent
    rcases hcr : createWrappedTokenNode st p ni (some lH)
        (getN st.heap lH).proportionOfParent with ⟨st2, r⟩
    rw [hcr] at h
    cases r with
    | error e => exact h
    | ok v => simp
  | false =>
    unfold createLinearNodeChildren
    rw [if_neg (by simp)]
    cases hm : p.mainIndex with
    | none => simp
    | some mi =>
      split
      · simp
      · split <;> simp

/-- Auxiliary step: once the address resolves to a pool, the remainder of
`buildGraphFromPool` cannot produce `PoolNotFound` (given that the child loop
cannot). -/
theorem buildGraphFromPool_found_aux (env : Env) (wrap : Bool) (fuel : Nat)
    (hC : ∀ (st : BuildSt) (ts : List PoolToken) (pool : Pool)
        (poolH tokenTotal P ni : Nat),
        (buildChildren env wrap fuel st ts pool poolH tokenTotal P ni).2 ≠
          .error .poolNotFound)
    (st : BuildSt) (address : String) (ni : Nat) (parent : Option Nat) (P : Nat)
    (pool : Pool) (hfind : env.findByAddress address = some pool) :
    (buildGraphFromPool env wrap (fuel + 1) st address ni parent P).2 ≠
      .error .poolNotFound := by
  simp only [buildGraphFromPool, hfind]
  cases hja : joinActions pool.poolType with
  | none => simp
  | some ja =>
    cases hea : exitActions pool.poolType with
    | none => simp
    | some ea =>
      simp only []
      by_cases hlin : strIncludes pool.poolType "Linear" = true
      · simp only [hlin, if_true]
        exact createLinearNodeChildren_not_poolNotFound wrap _ _ _ pool
      · simp only [Bool.not_eq_true] at hlin
        simp only [hlin, Bool.false_eq_true, if_false]
        exact hC _ _ _ _ _ _ _

/-- Below the root (with a parent, or inside the child loop) the build never
fails with `PoolNotFound`. -/
theorem build_not_poolNotFound (fuel : Nat) (env : Env) (wrap : Bool) :
    (∀ (st : BuildSt) (address : String) (ni parentH P : Nat),
        (buildGraphFromPool env wrap fuel st address ni (some parentH) P).2 ≠
          .error .poolNotFound) ∧
      (∀ (st : BuildSt) (ts : List PoolToken) (pool : Pool)
          (poolH tokenTotal P ni : Nat),
          (buildChildren env wrap fuel st ts pool poolH tokenTotal P ni).2 ≠
            .error .poolNotFound) := by
  induction fuel with
  | zero =>
    constructor
    · intro st address ni parentH P
      simp [buildGraphFromPool]
    · intro st ts pool poolH tokenTotal P ni
      simp [buildChildren]
  | succ fuel ih =>
    obtain ⟨ihG, ihC⟩ := ih
    constructor
    · intro st address ni parentH P
      cases hfind : env.findByAddress address with
      | none =>
        simp only [buildGraphFromPool, hfind]
        cases hpf : env.findByAddress (getN st.heap parentH).address with
        | none => simp
        | some parentPool =>
          split
          · simp
          · split <;> simp
      | some pool =>
        exact buildGraphFromPool_found_aux env wrap fuel ihC st address ni
          (some parentH) P pool hfind
    · intro st ts pool poolH tokenTotal P ni
      cases ts with
      | nil => simp [buildChildren]
      | cons t ts' =>
        simp only [buildChildren]
        by_cases hself : (t.address == pool.address) = true
        · simp only [hself, if_true]
          exact ihC _ _ _ _ _ _ _
        · simp only [hself, Bool.false_eq_true, if_false]
          by_cases hT : tokenTotal = 0
          · simp [bigNumberDiv, hT]
          · simp only [bigNumberDiv, hT, if_false]
            rcases hg : buildGraphFromPool env wrap fuel st t.address ni (some poolH)
              (t.parsedBalance * WeiPerEtherN / tokenTotal * P / WeiPerEtherN) with ⟨st2, r⟩
            have hne := ihG st t.address ni poolH
              (t.parsedBalance * WeiPerEtherN / tokenTotal * P / WeiPerEtherN)
            rw [hg] at hne
            rw [if_neg (by decide : ¬WeiPerEtherN = 0)]
            cases r with
            | error e =>
              simp only [hg]
              exact hne
            | ok v =>
              rcases v with ⟨childH, ni2⟩
              simp only [hg]
              exact ihC _ _ _ _ _ _ _

/-- Claim C5, amended.  `buildRoot` fails with `PoolNotFound` exactly when
the root pool id has no record or the root pool's address does not resolve;
no deeper lookup failure produces `PoolNotFound`.  When a non-root address
does not resolve and the parent pool's own address lookup also fails, the
build aborts with a TypeError (unchecked `as Pool` cast), not with
`PoolNotFound`. -/
theorem c5_amended_poolNotFound_characterization (env : Env) (wrap : Bool)
    (fuel : Nat) (poolId : String) (hfuel : 0 < fuel) :
    ((buildGraphFromRootPool env fuel poolId wrap).2 = .error .poolNotFound ↔
      env.findById poolId = none ∨
        ∃ pool, env.findById poolId = some pool ∧
          env.findByAddress pool.address = none) ∧
    (∀ (st : BuildSt) (address : String) (ni parentH P : Nat),
        env.findByAddress address = none →
        env.findByAddress (getN st.heap parentH).address = none →
        (buildGraphFromPool env wrap fuel st address ni (some parentH) P).2 =
          .error .typeError) := by
  obtain ⟨fuel, rfl⟩ : ∃ f, fuel = f + 1 := ⟨fuel - 1, by omega⟩
  constructor
  · cases hid : env.findById poolId with
    | none => simp [buildGraphFromRootPool, hid]
    | some pool =>
      cases haddr : env.findByAddress pool.address with
      | none =>
        constructor
        · intro _
          exact Or.inr ⟨pool, rfl, haddr⟩
        · intro _
          simp [buildGraphFromRootPool, hid, buildGraphFromPool, haddr]
      | some q =>
        constructor
        · intro hc
          exfalso
          have hne := buildGraphFromPool_found_aux env wrap fuel
            (build_not_poolNotFound fuel env wrap).2
            { heap := [], lookups := [] } pool.address 0 none WeiPerEtherN q haddr
          rcases hg : buildGraphFromPool env wrap (fuel + 1)
              { heap := [], lookups := [] } pool.address 0 none WeiPerEtherN with ⟨st, r⟩
          rw [hg] at hne
          simp only [buildGraphFromRootPool, hid, hg] at hc
          cases r with
          | error e =>
            simp only at hc
            exact hne (by simpa using hc)
          | ok v =>
            rcases v with ⟨h1, h2⟩
            simp at hc
        · intro hr
          rcases hr with h | ⟨pool', h1, h2⟩
          · cases h
          · injection h1 with h1
            subst h1
            rw [haddr] at h2
            cases h2
  · intro st address ni parentH P h1 h2
    simp [buildGraphFromPool, h1, h2]

/-- Witness for the amended C5 theorem: an unknown root pool id fails with
`PoolNotFound`. -/
theorem c5_amended_witness :
    envA.findById "unknown" = none ∧
      (buildGraphFromRootPool envA 10 "unknown" false).2 = .error .poolNotFound :=
  ⟨rfl,
    (c5_amended_poolNotFound_characterization envA false 10 "unknown"
        (by decide)).1.mpr (Or.inl rfl)⟩

/-! ### Heap access lemmas -/

theorem getN_set (heap : List Node) (c : Nat) (n : Node) (h : Nat) :
    getN (heap.set c n) h = if c = h ∧ c < heap.length then n else getN heap h := by
  unfold getN
  by_cases hch : c = h
  · subst hch
    by_cases hlt : c < heap.length
    · simp [List.get?_set_eq_of_lt _ hlt, hlt]
    · rw [List.set_eq_of_length_le (by omega)]
      simp [hlt]
  · rw [List.get?_set_ne _ _ hch]
    simp [hch]

theorem getN_append (heap : List Node) (l : List Node) (h : Nat)
    (hlt : h < heap.length) : getN (heap ++ l) h = getN heap h := by
  unfold getN
  rw [List.get?_append hlt]

/-! ### `orderByBfs` touches only the `marked` flag (towards C7 and C10) -/

theorem onlyMarks_refl (heap : List Node) : OnlyMarks heap heap :=
  fun _ => ⟨rfl, id⟩

theorem onlyMarks_trans {h1 h2 h3 : List Node} (a : OnlyMarks h1 h2)
    (b : OnlyMarks h2 h3) : OnlyMarks h1 h3 := by
  intro h
  obtain ⟨a1, a2⟩ := a h
  obtain ⟨b1, b2⟩ := b h
  exact ⟨b1.trans a1, fun hm => b2 (a2 hm)⟩

theorem onlyMarks_set_marked (heap : List Node) (c : Nat) :
    OnlyMarks heap (heap.set c { getN heap c with marked := true }) := by
  intro h
  rw [getN_set]
  by_cases hc : c = h ∧ c < heap.length
  · rcases hc with ⟨rfl, hlt⟩
    simp [hlt]
  · simp [hc]

theorem markChildren_cons (heap : List Node) (c : Nat) (cs : List Nat)
    (queue : List Nat) :
    markChildren heap (c :: cs) queue =
      if (getN heap c).marked = true then markChildren heap cs queue
      else markChildren (heap.set c { getN heap c with marked := true }) cs
        (queue ++ [c]) := by
  unfold markChildren
  simp only [List.foldl_cons]
  by_cases hm : (getN heap c).marked = true <;> simp [hm]

theorem markChildren_onlyMarks (cs : List Nat) :
    ∀ (heap : List Node) (queue : List Nat),
      OnlyMarks heap (markChildren heap cs queue).1 := by
  induction cs with
  | nil => intro heap queue; exact onlyMarks_refl heap
  | cons c cs ih =>
    intro heap queue
    rw [markChildren_cons]
    by_cases hm : (getN heap c).marked = true
    · rw [if_pos hm]; exact ih heap queue
    · rw [if_neg hm]
      exact onlyMarks_trans (onlyMarks_set_marked heap c) (ih _ _)

theorem bfsLoop_onlyMarks :
    ∀ (fuel : Nat) (heap : List Node) (queue ordered : List Nat),
      OnlyMarks heap (bfsLoop fuel heap queue ordered).1 := by
  intro fuel
  induction fuel with
  | zero => intro heap queue ordered; exact onlyMarks_refl heap
  | succ fuel ih =>
    intro heap queue ordered
    cases queue with
    | nil => exact onlyMarks_refl heap
    | cons h rest =>
      simp only [bfsLoop]
      exact onlyMarks_trans (markChildren_onlyMarks _ heap rest) (ih _ _ _)

/-- Claim C7, amended.  `orderByBfs` is not side-effect-free, but its only
effect is on the `marked` flag: for every node handle, every field except
`marked` is unchanged, and `marked` is never reset (a marked node stays
marked). -/
theorem c7_amended_marked_only_effect (heap : List Node) (root : Nat) :
    ∀ h : Nat,
      { getN (orderByBfs heap root).1 h with marked := false } =
        { getN heap h with marked := false } ∧
      ((getN heap h).marked = true → (getN (orderByBfs heap root).1 h).marked = true) := by
  have hstep := onlyMarks_set_marked heap root
  have hloop := bfsLoop_onlyMarks (heap.length + 1)
    (heap.set root { getN heap root with marked := true }) [root] []
  exact onlyMarks_trans hstep hloop

/-- Witness for the amended C7 theorem, on the built `envA` tree: all fields
of the leaf at handle 1 except `marked` survive `orderByBfs`, and a marked
node stays marked on the repeated traversal. -/
theorem c7_amended_witness :
    { getN (orderByBfs heapA 0).1 1 with marked := false } =
        { getN heapA 1 with marked := false } ∧
      (getN (orderByBfs bfsA.1 0).1 1).marked = true :=
  ⟨(c7_amended_marked_only_effect heapA 0 1).1,
    (c7_amended_marked_only_effect bfsA.1 0 1).2 (by decide)⟩

/-! ### `getNodesToRoot` frame (towards C3) -/

theorem frameInv_refl (heap : List Node) : FrameInv heap heap :=
  ⟨Nat.le_refl _, fun _ _ => Or.inl rfl⟩

theorem frameInv_append (heap hp l : List Node) (hinv : FrameInv heap hp) :
    FrameInv heap (hp ++ l) := by
  obtain ⟨hlen, hinv⟩ := hinv
  refine ⟨by simp only [List.length_append]; omega, fun h hlt => ?_⟩
  rw [getN_append hp l h (by omega)]
  exact hinv h hlt

theorem frameInv_setIndexZero (heap hp : List Node) (c : Nat)
    (hinv : FrameInv heap hp) :
    FrameInv heap (hp.set c { getN hp c with index := "0" }) := by
  obtain ⟨hlen, hinv⟩ := hinv
  refine ⟨by simp only [List.length_set]; omega, fun h hlt => ?_⟩
  rw [getN_set]
  by_cases hc : c = h ∧ c < hp.length
  · rcases hc with ⟨rfl, hclt⟩
    rw [if_pos ⟨rfl, hclt⟩]
    rcases hinv c hlt with h1 | h1 <;> rw [h1] <;> exact Or.inr rfl
  · rw [if_neg hc]
    exact hinv h hlt

theorem frameInv_foldlIndexZero (cs : List Nat) :
    ∀ (heap hp : List Node), FrameInv heap hp →
      FrameInv heap
        (cs.foldl (fun hp c => hp.set c { getN hp c with index := "0" }) hp) := by
  induction cs with
  | nil => intro heap hp hinv; exact hinv
  | cons c cs ih =>
    intro heap hp hinv
    simp only [List.foldl_cons]
    exact ih heap _ (frameInv_setIndexZero heap hp c hinv)

theorem foldlIndexZero_length (cs : List Nat) :
    ∀ hp : List Node,
      (cs.foldl (fun hp c => hp.set c { getN hp c with index := "0" }) hp).length =
        hp.length := by
  induction cs with
  | nil => intro hp; rfl
  | cons c cs ih =>
    intro hp
    simp only [List.foldl_cons]
    rw [ih]
    exact List.length_set ..

theorem nodesToRootStep_frame (si firstH : Nat) (heap hp : List Node)
    (index parentH : Nat) (hinv : FrameInv heap hp) :
    FrameInv heap (nodesToRootStep si firstH hp index parentH).1 := by
  unfold nodesToRootStep
  by_cases hidx : (index - 1 == si) = true
  · rw [if_pos hidx]
    exact frameInv_append heap _ _ (frameInv_foldlIndexZero _ heap hp hinv)
  · rw [if_neg hidx]
    exact frameInv_append heap _ _ hinv

theorem nodesToRootStep_handle (si firstH : Nat) (heap : List Node)
    (index parentH : Nat) :
    (nodesToRootStep si firstH heap index parentH).2 = heap.length := by
  unfold nodesToRootStep
  by_cases hidx : (index - 1 == si) = true
  · rw [if_pos hidx]
    exact foldlIndexZero_length _ heap
  · rw [if_neg hidx]

theorem nodesToRootLoop_frame (si firstH : Nat) (heap : List Node) :
    ∀ (fuel : Nat) (hp : List Node) (acc : List Nat) (index : Nat)
      (par : Option Nat), FrameInv heap hp →
      FrameInv heap (nodesToRootLoop si firstH fuel hp acc index par).1 ∧
        ∃ extra, (nodesToRootLoop si firstH fuel hp acc index par).2 = acc ++ extra ∧
          ∀ h ∈ extra, heap.length ≤ h := by
  intro fuel
  induction fuel with
  | zero =>
    intro hp acc index par hinv
    exact ⟨hinv, [], by simp [nodesToRootLoop], by simp⟩
  | succ fuel ih =>
    intro hp acc index par hinv
    cases par with
    | none => exact ⟨hinv, [], by simp [nodesToRootLoop], by simp⟩
    | some parentH =>
      simp only [nodesToRootLoop]
      obtain ⟨hres, extra, hacc, hext⟩ :=
        ih (nodesToRootStep si firstH hp index parentH).1
          (acc ++ [(nodesToRootStep si firstH hp index parentH).2]) (index + 1)
          (getN hp parentH).parent
          (nodesToRootStep_frame si firstH heap hp index parentH hinv)
      refine ⟨hres, (nodesToRootStep si firstH hp index parentH).2 :: extra, ?_, ?_⟩
      · rw [hacc, List.append_assoc]
        rfl
      · intro h hmem
        rcases List.mem_cons.1 hmem with rfl | hmem
        · rw [nodesToRootStep_handle]
          exact hinv.1
        · exact hext h hmem

/-- Claim C3, amended.  `getNodesToRoot` leaves every field of every node of
the original heap unchanged except `index`, and when it does change an
`index` it overwrites it with `"0"` (this happens to the non-matching
children of the matched node's immediate parent, which are shared with the
original tree); every ancestor-chain element after the first entry of a
successfully returned path is a newly allocated copy (its handle lies beyond
the original heap). -/
theorem c3_amended_frame (heap : List Node) (orderedNodes : List Nat)
    (inputToken : String) (startingIndex : Nat) :
    (∀ h : Nat, h < heap.length →
      getN (getNodesToRoot heap orderedNodes inputToken startingIndex).1 h =
          getN heap h ∨
        getN (getNodesToRoot heap orderedNodes inputToken startingIndex).1 h =
          { getN heap h with index := "0" }) ∧
      ∀ r, (getNodesToRoot heap orderedNodes inputToken startingIndex).2 = .ok r →
        ∀ h ∈ r.tail, heap.length ≤ h := by
  unfold getNodesToRoot
  cases hlast : orderedNodes.getLast? with
  | none => exact ⟨fun h hlt => Or.inl rfl, fun r hr => by cases hr⟩
  | some lastH =>
    dsimp only []
    by_cases hroot :
        (strToLower inputToken == strToLower (getN heap lastH).address) = true
    · rw [if_pos hroot]
      exact ⟨fun h hlt => Or.inl rfl, fun r hr => by cases hr⟩
    · rw [if_neg hroot]
      cases hfind : orderedNodes.find?
          (fun h => strToLower (getN heap h).address == strToLower inputToken) with
      | none => exact ⟨fun h hlt => Or.inl rfl, fun r hr => by cases hr⟩
      | some inputNode =>
        dsimp only []
        by_cases hleaf : ((getN heap inputNode).joinAction != "input") = true
        · rw [if_pos hleaf]
          obtain ⟨hres, extra, hacc, hext⟩ :=
            nodesToRootLoop_frame startingIndex
              (createInputTokenNode heap startingIndex inputToken
                (getN heap inputNode).decimals (getN heap inputNode).parent
                WeiPerEtherN).2.1
              heap (heap.length + 1)
              (createInputTokenNode heap startingIndex inputToken
                (getN heap inputNode).decimals (getN heap inputNode).parent
                WeiPerEtherN).1
              [(createInputTokenNode heap startingIndex inputToken
                (getN heap inputNode).decimals (getN heap inputNode).parent
                WeiPerEtherN).2.1]
              (startingIndex + 1) (getN heap inputNode).parent
              (frameInv_append heap heap _ (frameInv_refl heap))
          refine ⟨fun h hlt => hres.2 h hlt, fun r hr => ?_⟩
          injection hr with hr
          subst hr
          rw [hacc]
          intro h hmem
          simp only [List.singleton_append, List.tail_cons] at hmem
          exact hext h hmem
        · rw [if_neg hleaf]
          obtain ⟨hres, extra, hacc, hext⟩ :=
            nodesToRootLoop_frame startingIndex inputNode heap (heap.length + 1)
              heap [inputNode] (startingIndex + 1) (getN heap inputNode).parent
              (frameInv_refl heap)
          refine ⟨fun h hlt => hres.2 h hlt, fun r hr => ?_⟩
          injection hr with hr
          subst hr
          rw [hacc]
          intro h hmem
          simp only [List.singleton_append, List.tail_cons] at hmem
          exact hext h hmem

/-- Witness for the amended C3 theorem on the built `envA` tree with leaf
input `"0xaaa"`: the mutated sibling (handle 2) satisfies the index-only
frame, and the single ancestor copy in the returned tail (handle 3) is a new
handle. -/
theorem c3_amended_witness :
    (getN (getNodesToRoot bfsA.1 bfsA.2 "0xaaa" 0).1 2 = getN bfsA.1 2 ∨
      getN (getNodesToRoot bfsA.1 bfsA.2 "0xaaa" 0).1 2 =
        { getN bfsA.1 2 with index := "0" }) ∧
      ∀ h ∈ [(1 : Nat), 3].tail, bfsA.1.length ≤ h :=
  ⟨(c3_amended_frame bfsA.1 bfsA.2 "0xaaa" 0).1 2 (by decide),
    (c3_amended_frame bfsA.1 bfsA.2 "0xaaa" 0).2 [1, 3] (by decide)⟩

/-! ### Level decomposition and breadth-first order (towards C6 and C10) -/

theorem level_succ (heap : List Node) (root d : Nat) :
    level heap root (d + 1) = (level heap root d).flatMap (childHandles heap) := rfl

theorem level_empty_succ (heap : List Node) (root d : Nat)
    (h : level heap root d = []) : level heap root (d + 1) = [] := by
  rw [level_succ, h]
  rfl

theorem level_empty_mono (heap : List Node) (root : Nat) (d e : Nat)
    (hde : d ≤ e) (h : level heap root d = []) : level heap root e = [] := by
  obtain ⟨k, rfl⟩ := Nat.exists_eq_add_of_le hde
  clear hde
  induction k with
  | zero => exact h
  | succ k ih => exact level_empty_succ heap root (d + k) ih

theorem bfsUpTo_succ (heap : List Node) (root d : Nat) :
    bfsUpTo heap root (d + 1) = bfsUpTo heap root d ++ level heap root d := by
  unfold bfsUpTo
  rw [List.range_succ, List.flatMap_append]
  simp

theorem bfsUpTo_stable (heap : List Node) (root D : Nat)
    (hD : level heap root D = []) :
    ∀ m : Nat, D ≤ m → bfsUpTo heap root m = bfsUpTo heap root D := by
  have key : ∀ k : Nat, bfsUpTo heap root (D + k) = bfsUpTo heap root D := by
    intro k
    induction k with
    | zero => rfl
    | succ k ih =>
      rw [show D + (k + 1) = (D + k) + 1 from rfl, bfsUpTo_succ, ih,
        level_empty_mono heap root D (D + k) (Nat.le_add_right D k) hD,
        List.append_nil]
  intro m hm
  obtain ⟨k, rfl⟩ := Nat.exists_eq_add_of_le hm
  exact key k

theorem bfsUpTo_le_append (heap : List Node) (root : Nat) (d e : Nat)
    (hde : d ≤ e) :
    ∃ rest, bfsUpTo heap root e = bfsUpTo heap root d ++ rest := by
  obtain ⟨k, rfl⟩ := Nat.exists_eq_add_of_le hde
  clear hde
  induction k with
  | zero => exact ⟨[], by simp⟩
  | succ k ih =>
    obtain ⟨rest, hrest⟩ := ih
    refine ⟨rest ++ level heap root (d + k), ?_⟩
    rw [show d + (k + 1) = (d + k) + 1 from rfl, bfsUpTo_succ, hrest,
      List.append_assoc]

theorem bfsUpTo_nodup (heap : List Node) (root : Nat) (hwf : WFBfs heap root) :
    ∀ m : Nat, (bfsUpTo heap root m).Nodup := by
  obtain ⟨hempty, hnodup, _, _⟩ := hwf
  intro m
  by_cases hm : m ≤ heap.length + 1
  · obtain ⟨rest, hrest⟩ := bfsUpTo_le_append heap root m (heap.length + 1) hm
    rw [hrest] at hnodup
    exact hnodup.of_append_left
  · rw [bfsUpTo_stable heap root heap.length hempty m (by omega)]
    obtain ⟨rest, hrest⟩ :=
      bfsUpTo_le_append heap root heap.length (heap.length + 1) (by omega)
    rw [hrest] at hnodup
    exact hnodup.of_append_left

theorem mem_level_mem_bfsUpTo (heap : List Node) (root : Nat) {k h d : Nat}
    (hk : k < d) (hmem : h ∈ level heap root k) : h ∈ bfsUpTo heap root d := by
  unfold bfsUpTo
  rw [List.mem_flatMap]
  exact ⟨k, List.mem_range.2 hk, hmem⟩

theorem get?_eq_some_getN (heap : List Node) (h : Nat) (hlt : h < heap.length) :
    heap.get? h = some (getN heap h) := by
  unfold getN
  cases hg : heap.get? h with
  | none => rw [List.get?_eq_none] at hg; omega
  | some n => rfl

/-! ### `MarkedAs` lemmas -/

theorem markedAs_children (heap heap' : List Node) (S : List Nat)
    (hm : MarkedAs heap heap' S) (h : Nat) :
    (getN heap' h).children = (getN heap h).children := by
  unfold getN
  rw [hm h]
  by_cases hS : h ∈ S
  · rw [if_pos hS]
    cases heap.get? h <;> simp
  · rw [if_neg hS]

theorem markedAs_marked_of_mem (heap heap' : List Node) (S : List Nat)
    (hm : MarkedAs heap heap' S) (h : Nat) (hS : h ∈ S) (hlt : h < heap.length) :
    (getN heap' h).marked = true := by
  unfold getN
  rw [hm h, if_pos hS, get?_eq_some_getN heap h hlt]
  rfl

theorem markedAs_getN_of_not_mem (heap heap' : List Node) (S : List Nat)
    (hm : MarkedAs heap heap' S) (h : Nat) (hS : h ∉ S) :
    getN heap' h = getN heap h := by
  unfold getN
  rw [hm h, if_neg hS]

theorem markedAs_length (heap heap' : List Node) (S : List Nat)
    (hm : MarkedAs heap heap' S) : heap'.length = heap.length := by
  have hiff : ∀ h : Nat, heap'.get? h = none ↔ heap.get? h = none := by
    intro h
    rw [hm h]
    by_cases hS : h ∈ S
    · rw [if_pos hS]
      cases heap.get? h <;> simp
    · rw [if_neg hS]
  apply Nat.le_antisymm
  · by_contra hc
    have h2 : heap.get? heap.length = none := List.get?_eq_none.2 (Nat.le_refl _)
    have h3 : heap'.get? heap.length = none := (hiff _).2 h2
    rw [List.get?_eq_none] at h3
    omega
  · by_contra hc
    have h2 : heap'.get? heap'.length = none := List.get?_eq_none.2 (Nat.le_refl _)
    have h3 : heap.get? heap'.length = none := (hiff _).1 h2
    rw [List.get?_eq_none] at h3
    omega

theorem markedAs_congr (heap heap' : List Node) (S S' : List Nat)
    (hSS : ∀ h : Nat, h ∈ S ↔ h ∈ S') (hm : MarkedAs heap heap' S) :
    MarkedAs heap heap' S' := by
  intro h
  rw [hm h]
  by_cases hS : h ∈ S
  · rw [if_pos hS, if_pos ((hSS h).1 hS)]
  · rw [if_neg hS, if_neg (fun hc => hS ((hSS h).2 hc))]

theorem markedAs_append (heap heap' heap'' : List Node) (S Q : List Nat)
    (h1 : MarkedAs heap heap' S) (h2 : MarkedAs heap' heap'' Q) :
    MarkedAs heap heap'' (S ++ Q) := by
  intro h
  rw [h2 h, h1 h]
  by_cases hQ : h ∈ Q
  · rw [if_pos hQ]
    by_cases hS : h ∈ S
    · rw [if_pos hS, if_pos (List.mem_append.2 (Or.inl hS))]
      cases heap.get? h <;> simp
    · rw [if_neg hS, if_pos (List.mem_append.2 (Or.inr hQ))]
  · rw [if_neg hQ]
    by_cases hS : h ∈ S
    · rw [if_pos hS, if_pos (List.mem_append.2 (Or.inl hS))]
    · rw [if_neg hS, if_neg (by simp [hS, hQ])]

theorem markedAs_refl (heap : List Node) : MarkedAs heap heap [] := by
  intro h
  rw [if_neg (List.not_mem_nil h)]

/-! ### `markChildren` specification and the BFS loop invariant -/

theorem bfsLoop_nil (fuel : Nat) (heap : List Node) (ordered : List Nat) :
    bfsLoop fuel heap [] ordered = (heap, ordered) := by
  cases fuel <;> rfl

theorem markChildren_allMarked (cs : List Nat) :
    ∀ (heap : List Node) (queue : List Nat),
      (∀ c ∈ cs, (getN heap c).marked = true) →
      markChildren heap cs queue = (heap, queue) := by
  induction cs with
  | nil => intro heap queue _; rfl
  | cons c cs ih =>
    intro heap queue hall
    rw [markChildren_cons, if_pos (hall c (List.mem_cons_self c cs))]
    exact ih heap queue (fun x hx => hall x (List.mem_cons_of_mem c hx))

theorem markChildren_spec (heap₀ : List Node) (cs : List Nat) :
    ∀ (heap : List Node) (queue S : List Nat),
      MarkedAs heap₀ heap S →
      cs.Nodup →
      (∀ c ∈ cs, c ∉ S) →
      (∀ c ∈ cs, c < heap₀.length) →
      (∀ c ∈ cs, (getN heap₀ c).marked = false) →
      (markChildren heap cs queue).2 = queue ++ cs ∧
        MarkedAs heap₀ (markChildren heap cs queue).1 (S ++ cs) := by
  induction cs with
  | nil =>
    intro heap queue S hm _ _ _ _
    exact ⟨by simp [markChildren], by simpa [markChildren] using hm⟩
  | cons c cs ih =>
    intro heap queue S hm hnd hdisj hval hunm
    have hc_not : c ∉ S := hdisj c (List.mem_cons_self c cs)
    have hc_val : c < heap₀.length := hval c (List.mem_cons_self c cs)
    have hc_unm : (getN heap₀ c).marked = false := hunm c (List.mem_cons_self c cs)
    have hgetc : getN heap c = getN heap₀ c :=
      markedAs_getN_of_not_mem heap₀ heap S hm c hc_not
    have hlen : heap.length = heap₀.length := markedAs_length heap₀ heap S hm
    have hmarked : ¬(getN heap c).marked = true := by
      rw [hgetc, hc_unm]
      simp
    rw [markChildren_cons, if_neg hmarked]
    have hstep :
        MarkedAs heap₀ (heap.set c { getN heap c with marked := true }) (S ++ [c]) := by
      intro h
      by_cases hch : c = h
      · subst hch
        rw [List.get?_set_eq_of_lt _ (by omega),
          if_pos (List.mem_append.2 (Or.inr (List.mem_singleton.2 rfl))),
          get?_eq_some_getN heap₀ c hc_val, hgetc]
        rfl
      · rw [List.get?_set_ne _ _ hch, hm h]
        by_cases hS : h ∈ S
        · rw [if_pos hS, if_pos (List.mem_append.2 (Or.inl hS))]
        · rw [if_neg hS, if_neg (by
            intro hc2
            rcases List.mem_append.1 hc2 with h1 | h1
            · exact hS h1
            · exact hch (List.mem_singleton.1 h1).symm)]
    obtain ⟨hndc, hndcs⟩ : c ∉ cs ∧ cs.Nodup := by
      rw [List.nodup_cons] at hnd
      exact hnd
    obtain ⟨hq, hmk⟩ := ih (heap.set c { getN heap c with marked := true })
      (queue ++ [c]) (S ++ [c]) hstep hndcs
      (by
        intro x hx hc2
        rcases List.mem_append.1 hc2 with h1 | h1
        · exact hdisj x (List.mem_cons_of_mem c hx) h1
        · exact hndc ((List.mem_singleton.1 h1) ▸ hx))
      (fun x hx => hval x (List.mem_cons_of_mem c hx))
      (fun x hx => hunm x (List.mem_cons_of_mem c hx))
    constructor
    · rw [hq, List.append_assoc, List.singleton_append]
    · rw [List.append_assoc, List.singleton_append] at hmk
      exact hmk

/-! ### Reachability and the level decomposition -/

theorem mem_level_reaches (heap : List Node) (root : Nat) :
    ∀ (k h : Nat), h ∈ level heap root k → Reaches heap root h := by
  intro k
  induction k with
  | zero =>
    intro h hmem
    rcases List.mem_singleton.1 hmem with rfl
    exact Reaches.refl
  | succ k ih =>
    intro h hmem
    obtain ⟨p, hp, hcp⟩ := List.mem_flatMap.1 hmem
    exact Reaches.step (ih p hp) hcp

theorem reaches_mem_level (heap : List Node) (root : Nat) (h : Nat)
    (hr : Reaches heap root h) : ∃ k, h ∈ level heap root k := by
  induction hr with
  | refl => exact ⟨0, List.mem_singleton.2 rfl⟩
  | step hr hc ih =>
    obtain ⟨k, hk⟩ := ih
    exact ⟨k + 1, List.mem_flatMap.2 ⟨_, hk, hc⟩⟩

theorem nodup_bounded_length (l : List Nat) (n : Nat) (hnd : l.Nodup)
    (hb : ∀ x ∈ l, x < n) : l.length ≤ n := by
  rw [← List.toFinset_card_of_nodup hnd]
  have hsub : l.toFinset ⊆ Finset.range n := by
    intro x hx
    simp only [Finset.mem_range]
    exact hb x (List.mem_toFinset.1 hx)
  simpa using Finset.card_le_card hsub

/-- Structural decomposition: at any invariant state of the BFS loop, the
full breadth-first order splits into the emitted part, the queue and a
remainder. -/
theorem bfs_key (heap₀ : List Node) (root : Nat) (hwf : WFBfs heap₀ root)
    (k : Nat) (a b : List Nat) (hlev : level heap₀ root k = a ++ b) :
    ∃ rest, bfsUpTo heap₀ root (heap₀.length + 1) =
      (bfsUpTo heap₀ root k ++ a) ++
        ((b ++ a.flatMap (childHandles heap₀)) ++ rest) := by
  by_cases hk : k < heap₀.length
  · obtain ⟨rest2, hrest2⟩ :=
      bfsUpTo_le_append heap₀ root (k + 2) (heap₀.length + 1) (by omega)
    refine ⟨b.flatMap (childHandles heap₀) ++ rest2, ?_⟩
    rw [hrest2, show k + 2 = (k + 1) + 1 from rfl, bfsUpTo_succ, bfsUpTo_succ,
      level_succ, hlev, List.flatMap_append]
    simp [List.append_assoc]
  · have hlevk : level heap₀ root k = [] :=
      level_empty_mono heap₀ root heap₀.length k (by omega) hwf.1
    rw [hlevk] at hlev
    obtain ⟨ha, hb2⟩ := List.append_eq_nil.1 hlev.symm
    subst ha
    subst hb2
    refine ⟨[], ?_⟩
    rw [bfsUpTo_stable heap₀ root heap₀.length hwf.1 k (by omega), bfsUpTo_succ,
      hwf.1]
    simp

/-- The BFS loop invariant: started anywhere inside the level decomposition
with the correct queue and marking state and enough fuel, the loop emits the
full breadth-first order and marks exactly its members. -/
theorem bfsLoop_invariant (heap₀ : List Node) (root : Nat) (hwf : WFBfs heap₀ root) :
    ∀ (fuel k : Nat) (a b : List Nat) (heap : List Node),
      level heap₀ root k = a ++ b →
      (b = [] → a.flatMap (childHandles heap₀) = []) →
      MarkedAs heap₀ heap
        (bfsUpTo heap₀ root (k + 1) ++ a.flatMap (childHandles heap₀)) →
      (bfsUpTo heap₀ root (heap₀.length + 1)).length ≤
        fuel + (bfsUpTo heap₀ root k ++ a).length →
      (bfsLoop fuel heap (b ++ a.flatMap (childHandles heap₀))
          (bfsUpTo heap₀ root k ++ a)).2 =
          bfsUpTo heap₀ root (heap₀.length + 1) ∧
        MarkedAs heap₀
          (bfsLoop fuel heap (b ++ a.flatMap (childHandles heap₀))
            (bfsUpTo heap₀ root k ++ a)).1
          (bfsUpTo heap₀ root (heap₀.length + 1)) := by
  have hterm : ∀ (k : Nat) (a : List Nat) (heap : List Node),
      level heap₀ root k = a →
      a.flatMap (childHandles heap₀) = [] →
      MarkedAs heap₀ heap
        (bfsUpTo heap₀ root (k + 1) ++ a.flatMap (childHandles heap₀)) →
      bfsUpTo heap₀ root k ++ a = bfsUpTo heap₀ root (heap₀.length + 1) ∧
        MarkedAs heap₀ heap (bfsUpTo heap₀ root (heap₀.length + 1)) := by
    intro k a heap hlev hch hmk
    have hlev1 : level heap₀ root (k + 1) = [] := by
      rw [level_succ, hlev]
      exact hch
    have heq : bfsUpTo heap₀ root (k + 1) = bfsUpTo heap₀ root (heap₀.length + 1) := by
      by_cases hk : k + 1 ≤ heap₀.length + 1
      · rw [bfsUpTo_stable heap₀ root (k + 1) hlev1 (heap₀.length + 1) hk]
      · rw [bfsUpTo_stable heap₀ root heap₀.length hwf.1 (k + 1) (by omega),
          bfsUpTo_succ, hwf.1, List.append_nil]
    have hFa : bfsUpTo heap₀ root k ++ a = bfsUpTo heap₀ root (k + 1) := by
      rw [bfsUpTo_succ, hlev]
    constructor
    · rw [hFa, heq]
    · rw [hch, List.append_nil, heq] at hmk
      exact hmk
  intro fuel
  induction fuel with
  | zero =>
    intro k a b heap hlev hb hmk hfuel
    obtain ⟨rest, hrest⟩ := bfs_key heap₀ root hwf k a b hlev
    have hqnil : b ++ a.flatMap (childHandles heap₀) = [] ∧ rest = [] := by
      have hlen := congrArg List.length hrest
      simp only [List.length_append] at hlen hfuel
      constructor
      · rw [← List.length_eq_zero]
        simp only [List.length_append]
        omega
      · rw [← List.length_eq_zero]
        omega
    obtain ⟨hqn, hrn⟩ := hqnil
    obtain ⟨hb1, hch⟩ := List.append_eq_nil.1 hqn
    subst hb1
    rw [List.append_nil] at hlev
    obtain ⟨ho, hm⟩ := hterm k a heap hlev hch hmk
    rw [hqn]
    rw [bfsLoop_nil]
    exact ⟨ho, hm⟩
  | succ fuel ih =>
    intro k a b heap hlev hb hmk hfuel
    rcases b with _ | ⟨h, t⟩
    · have hch : a.flatMap (childHandles heap₀) = [] := hb rfl
      rw [List.append_nil] at hlev
      obtain ⟨ho, hm⟩ := hterm k a heap hlev hch hmk
      rw [List.nil_append, hch, bfsLoop_nil]
      exact ⟨ho, hm⟩
    · -- queue head h with rest t ++ children(a)
      have hk_lt : k < heap₀.length := by
        by_contra hk
        have hlevk : level heap₀ root k = [] :=
          level_empty_mono heap₀ root heap₀.length k (by omega) hwf.1
        rw [hlevk] at hlev
        have h2 := List.append_eq_nil.1 hlev.symm
        exact List.cons_ne_nil h t h2.2
      have hchq : (getN heap h).children = childHandles heap₀ h := by
        rw [markedAs_children heap₀ heap _ hmk h]
        rfl
      have hlev1 : level heap₀ root (k + 1) =
          a.flatMap (childHandles heap₀) ++
            (childHandles heap₀ h ++ t.flatMap (childHandles heap₀)) := by
        rw [level_succ, hlev, List.flatMap_append, List.flatMap_cons]
      have hdecomp : bfsUpTo heap₀ root (k + 2) =
          bfsUpTo heap₀ root (k + 1) ++
            (a.flatMap (childHandles heap₀) ++
              (childHandles heap₀ h ++ t.flatMap (childHandles heap₀))) := by
        rw [show k + 2 = (k + 1) + 1 from rfl, bfsUpTo_succ, hlev1]
      have hnodup2 : (bfsUpTo heap₀ root (k + 2)).Nodup :=
        bfsUpTo_nodup heap₀ root hwf (k + 2)
      rw [hdecomp] at hnodup2
      rw [List.nodup_append] at hnodup2
      obtain ⟨_, hndlev, hdisjF⟩ := hnodup2
      rw [List.nodup_append] at hndlev
      obtain ⟨_, hndcst, hdisjcha⟩ := hndlev
      rw [List.nodup_append] at hndcst
      obtain ⟨hndcs, _, hdisjcst⟩ := hndcst
      have hmemlev : ∀ c ∈ childHandles heap₀ h, c ∈ level heap₀ root (k + 1) := by
        intro c hc
        rw [hlev1]
        exact List.mem_append.2 (Or.inr (List.mem_append.2 (Or.inl hc)))
      have hmemL : ∀ c ∈ childHandles heap₀ h,
          c ∈ bfsUpTo heap₀ root (heap₀.length + 1) := by
        intro c hc
        exact mem_level_mem_bfsUpTo heap₀ root (by omega) (hmemlev c hc)
      have hnotS : ∀ c ∈ childHandles heap₀ h,
          c ∉ bfsUpTo heap₀ root (k + 1) ++ a.flatMap (childHandles heap₀) := by
        intro c hc hcS
        rcases List.mem_append.1 hcS with h1 | h1
        · exact hdisjF h1 (List.mem_append.2 (Or.inr (List.mem_append.2 (Or.inl hc))))
        · exact hdisjcha h1 (List.mem_append.2 (Or.inl hc))
      obtain ⟨hq2, hmk2⟩ := markChildren_spec heap₀ (childHandles heap₀ h) heap
        (t ++ a.flatMap (childHandles heap₀))
        (bfsUpTo heap₀ root (k + 1) ++ a.flatMap (childHandles heap₀)) hmk hndcs
        hnotS (fun c hc => hwf.2.2.1 c (hmemL c hc))
        (fun c hc => hwf.2.2.2 c (hmemL c hc))
      rw [List.cons_append]
      simp only [bfsLoop]
      rw [hchq, hq2]
      rcases t with _ | ⟨hh, tt⟩
      · -- h was the last node of level k: move to level k+1
        have eq_q : level heap₀ root (k + 1) ++
              ([] : List Nat).flatMap (childHandles heap₀) =
            ([] ++ a.flatMap (childHandles heap₀)) ++ childHandles heap₀ h := by
          rw [hlev1]
          simp
        have eq_o : bfsUpTo heap₀ root (k + 1) ++ ([] : List Nat) =
            (bfsUpTo heap₀ root k ++ a) ++ [h] := by
          rw [List.append_nil, bfsUpTo_succ, hlev]
          simp [List.append_assoc]
        have eq_S : bfsUpTo heap₀ root ((k + 1) + 1) ++
              ([] : List Nat).flatMap (childHandles heap₀) =
            (bfsUpTo heap₀ root (k + 1) ++ a.flatMap (childHandles heap₀)) ++
              childHandles heap₀ h := by
          rw [show (k + 1) + 1 = k + 2 from rfl, hdecomp]
          simp [List.append_assoc]
        have hIH := ih (k + 1) [] (level heap₀ root (k + 1))
          (markChildren heap (childHandles heap₀ h)
            ([] ++ a.flatMap (childHandles heap₀))).1
          (List.nil_append _).symm
          (fun _ => rfl)
          (by rw [eq_S]; exact hmk2)
          (by
            have e := congrArg List.length eq_o
            simp only [List.length_append, List.length_nil, List.length_cons] at e hfuel ⊢
            omega)
        rw [eq_q, eq_o] at hIH
        exact hIH
      · -- more of level k remains
        have eq_q : (hh :: tt) ++ (a ++ [h]).flatMap (childHandles heap₀) =
            ((hh :: tt) ++ a.flatMap (childHandles heap₀)) ++
              childHandles heap₀ h := by
          simp [List.flatMap_append, List.append_assoc]
        have eq_o : bfsUpTo heap₀ root k ++ (a ++ [h]) =
            (bfsUpTo heap₀ root k ++ a) ++ [h] := by
          rw [List.append_assoc]
        have eq_S : bfsUpTo heap₀ root (k + 1) ++
              (a ++ [h]).flatMap (childHandles heap₀) =
            (bfsUpTo heap₀ root (k + 1) ++ a.flatMap (childHandles heap₀)) ++
              childHandles heap₀ h := by
          simp [List.flatMap_append, List.append_assoc]
        have hIH := ih k (a ++ [h]) (hh :: tt)
          (markChildren heap (childHandles heap₀ h)
            ((hh :: tt) ++ a.flatMap (childHandles heap₀))).1
          (by rw [hlev, List.append_assoc]; rfl)
          (by intro hc; cases hc)
          (by rw [eq_S]; exact hmk2)
          (by
            simp only [List.length_append, List.length_cons, List.length_nil] at hfuel ⊢
            omega)
        rw [eq_q, eq_o] at hIH
        exact hIH

/-- The specification of `orderByBfs` on a well-formed tree: it emits the
full breadth-first order (root, children, grandchildren, level by level) and
marks exactly its members. -/
theorem orderByBfs_spec (heap : List Node) (root : Nat) (hwf : WFBfs heap root) :
    (orderByBfs heap root).2 = bfsUpTo heap root (heap.length + 1) ∧
      MarkedAs heap (orderByBfs heap root).1
        (bfsUpTo heap root (heap.length + 1)) := by
  have hrootL : root ∈ bfsUpTo heap root (heap.length + 1) :=
    @mem_level_mem_bfsUpTo heap root 0 root (heap.length + 1) (by omega)
      (List.mem_singleton.2 rfl)
  have hrootlt : root < heap.length := hwf.2.2.1 root hrootL
  have hmk1 : MarkedAs heap (heap.set root { getN heap root with marked := true })
      [root] := by
    intro h
    by_cases hch : root = h
    · subst hch
      rw [List.get?_set_eq_of_lt _ hrootlt, if_pos (List.mem_singleton.2 rfl),
        get?_eq_some_getN heap root hrootlt]
      rfl
    · rw [List.get?_set_ne _ _ hch,
        if_neg (fun hc => hch (List.mem_singleton.1 hc).symm)]
  have hS0 : bfsUpTo heap root (0 + 1) ++
      ([] : List Nat).flatMap (childHandles heap) = [root] := rfl
  have hLlen : (bfsUpTo heap root (heap.length + 1)).length ≤ heap.length :=
    nodup_bounded_length _ _ hwf.2.1 hwf.2.2.1
  have hinv := bfsLoop_invariant heap root hwf (heap.length + 1) 0 [] [root]
    (heap.set root { getN heap root with marked := true })
    (by rfl)
    (by intro hc; cases hc)
    (by rw [hS0]; exact hmk1)
    (by
      simp only [List.length_append, List.length_nil]
      omega)
  have hq : ([root] : List Nat) ++ ([] : List Nat).flatMap (childHandles heap) =
      [root] := by simp
  have ho : bfsUpTo heap root 0 ++ ([] : List Nat) = [] := by
    simp [bfsUpTo]
  rw [hq, ho] at hinv
  exact hinv

/-! ### Marking-based uniqueness of the traversal (towards C6)

The invariant below is driven purely by the `marked` flags, so it covers
heaps in which two parents share a child: no duplicate-freedom of the
underlying structure is assumed. -/

theorem reaches_lt (heap : List Node) (root : Nat)
    (hroot : root < heap.length)
    (hchild : ∀ x : Nat, x < heap.length → ∀ c ∈ childHandles heap x,
      c < heap.length) :
    ∀ h : Nat, Reaches heap root h → h < heap.length := by
  intro h hr
  induction hr with
  | refl => exact hroot
  | step hr hc ih => exact hchild _ ih _ hc

theorem markChildren_inv (heap₀ : List Node) (root : Nat)
    (hval : ∀ h : Nat, Reaches heap₀ root h → h < heap₀.length) :
    ∀ (cs : List Nat) (heap : List Node) (queue base : List Nat),
      heap.length = heap₀.length →
      (∀ x : Nat, childHandles heap x = childHandles heap₀ x) →
      (∀ x : Nat, x < heap₀.length →
        ((getN heap x).marked = true ↔ x ∈ base ++ queue)) →
      (base ++ queue).Nodup →
      (∀ x ∈ base ++ queue, Reaches heap₀ root x) →
      (∀ c ∈ cs, Reaches heap₀ root c) →
      (markChildren heap cs queue).1.length = heap₀.length ∧
        (∀ x : Nat,
          childHandles (markChildren heap cs queue).1 x =
            childHandles heap₀ x) ∧
        (∀ x : Nat, x < heap₀.length →
          ((getN (markChildren heap cs queue).1 x).marked = true ↔
            x ∈ base ++ (markChildren heap cs queue).2)) ∧
        (base ++ (markChildren heap cs queue).2).Nodup ∧
        (∀ x ∈ base ++ (markChildren heap cs queue).2, Reaches heap₀ root x) ∧
        (∀ x ∈ queue, x ∈ (markChildren heap cs queue).2) ∧
        (∀ c ∈ cs, c ∈ base ++ (markChildren heap cs queue).2) := by
  intro cs
  induction cs with
  | nil =>
    intro heap queue base hlen hch hmk hnd hreach _
    refine ⟨hlen, hch, hmk, hnd, hreach, fun x hx => hx, ?_⟩
    intro c hc
    cases hc
  | cons c cs ih =>
    intro heap queue base hlen hch hmk hnd hreach hcs
    have hcr : Reaches heap₀ root c := hcs c (List.mem_cons_self c cs)
    have hclt : c < heap₀.length := hval c hcr
    have hcs' : ∀ d ∈ cs, Reaches heap₀ root d :=
      fun d hd => hcs d (List.mem_cons_of_mem c hd)
    rw [markChildren_cons]
    by_cases hm : (getN heap c).marked = true
    · rw [if_pos hm]
      have hres := ih heap queue base hlen hch hmk hnd hreach hcs'
      refine ⟨hres.1, hres.2.1, hres.2.2.1, hres.2.2.2.1, hres.2.2.2.2.1,
        hres.2.2.2.2.2.1, ?_⟩
      intro d hd
      rcases List.mem_cons.1 hd with rfl | hd'
      · rcases List.mem_append.1 ((hmk d hclt).1 hm) with hb | hq
        · exact List.mem_append.2 (Or.inl hb)
        · exact List.mem_append.2 (Or.inr (hres.2.2.2.2.2.1 d hq))
      · exact hres.2.2.2.2.2.2 d hd'
    · rw [if_neg hm]
      have hcnot : c ∉ base ++ queue := fun hin => hm ((hmk c hclt).2 hin)
      have hlen' : (heap.set c { getN heap c with marked := true }).length =
          heap₀.length := by
        rw [List.length_set]
        exact hlen
      have hch' : ∀ x : Nat,
          childHandles (heap.set c { getN heap c with marked := true }) x =
            childHandles heap₀ x := by
        intro x
        unfold childHandles
        rw [getN_set]
        by_cases hcx : c = x ∧ c < heap.length
        · rw [if_pos hcx]
          rcases hcx with ⟨rfl, _⟩
          exact hch c
        · rw [if_neg hcx]
          exact hch x
      have hmk' : ∀ x : Nat, x < heap₀.length →
          ((getN (heap.set c { getN heap c with marked := true }) x).marked =
              true ↔ x ∈ base ++ (queue ++ [c])) := by
        intro x hx
        rw [getN_set]
        by_cases hcx : c = x ∧ c < heap.length
        · rcases hcx with ⟨rfl, hlt⟩
          simp [hlt, List.mem_append]
        · have hxc : ¬ x = c := fun he => hcx ⟨he.symm, by omega⟩
          rw [if_neg hcx, hmk x hx]
          simp [List.mem_append, hxc]
      have hnd' : (base ++ (queue ++ [c])).Nodup := by
        rw [← List.append_assoc, List.nodup_append]
        refine ⟨hnd, List.nodup_singleton c, ?_⟩
        intro y hy hyc
        rcases List.mem_singleton.1 hyc with rfl
        exact hcnot hy
      have hreach' : ∀ x ∈ base ++ (queue ++ [c]), Reaches heap₀ root x := by
        intro x hx
        rcases List.mem_append.1 hx with hb | hq
        · exact hreach x (List.mem_append.2 (Or.inl hb))
        · rcases List.mem_append.1 hq with hq' | hc1
          · exact hreach x (List.mem_append.2 (Or.inr hq'))
          · rcases List.mem_singleton.1 hc1 with rfl
            exact hcr
      have hres := ih (heap.set c { getN heap c with marked := true })
        (queue ++ [c]) base hlen' hch' hmk' hnd' hreach' hcs'
      refine ⟨hres.1, hres.2.1, hres.2.2.1, hres.2.2.2.1, hres.2.2.2.2.1,
        ?_, ?_⟩
      · intro x hx
        exact hres.2.2.2.2.2.1 x (List.mem_append.2 (Or.inl hx))
      · intro d hd
        rcases List.mem_cons.1 hd with rfl | hd'
        · exact List.mem_append.2 (Or.inr (hres.2.2.2.2.2.1 d
            (List.mem_append.2 (Or.inr (List.mem_singleton.2 rfl)))))
        · exact hres.2.2.2.2.2.2 d hd'

theorem bfsLoop_mark_inv (heap₀ : List Node) (root : Nat)
    (hval : ∀ h : Nat, Reaches heap₀ root h → h < heap₀.length) :
    ∀ (fuel : Nat) (heap : List Node) (queue ordered : List Nat),
      heap.length = heap₀.length →
      (∀ x : Nat, childHandles heap x = childHandles heap₀ x) →
      (∀ x : Nat, x < heap₀.length →
        ((getN heap x).marked = true ↔ x ∈ ordered ++ queue)) →
      (ordered ++ queue).Nodup →
      (∀ x ∈ ordered ++ queue, Reaches heap₀ root x) →
      (∀ x ∈ ordered, ∀ c ∈ childHandles heap₀ x, c ∈ ordered ++ queue) →
      heap₀.length + 1 ≤ fuel + ordered.length →
      (bfsLoop fuel heap queue ordered).2.Nodup ∧
        (∀ x ∈ (bfsLoop fuel heap queue ordered).2, Reaches heap₀ root x) ∧
        (∀ x ∈ ordered ++ queue, x ∈ (bfsLoop fuel heap queue ordered).2) ∧
        (∀ x ∈ (bfsLoop fuel heap queue ordered).2,
          ∀ c ∈ childHandles heap₀ x, c ∈ (bfsLoop fuel heap queue ordered).2) ∧
        (∀ (q : Nat) (qs : List Nat), queue = q :: qs →
          ∃ t : List Nat,
            (bfsLoop fuel heap queue ordered).2 = ordered ++ q :: t) ∧
        (queue = [] → (bfsLoop fuel heap queue ordered).2 = ordered) := by
  intro fuel
  induction fuel with
  | zero =>
    intro heap queue ordered hlen hch hmk hnd hreach hclose hfuel
    exfalso
    have hnd0 : ordered.Nodup := hnd.of_append_left
    have hb : ∀ x ∈ ordered, x < heap₀.length := fun x hx =>
      hval x (hreach x (List.mem_append.2 (Or.inl hx)))
    have := nodup_bounded_length ordered heap₀.length hnd0 hb
    omega
  | succ fuel ih =>
    intro heap queue ordered hlen hch hmk hnd hreach hclose hfuel
    cases queue with
    | nil =>
      rw [List.append_nil] at hnd hreach hclose
      simp only [bfsLoop]
      refine ⟨hnd, hreach, ?_, hclose, ?_, ?_⟩
      · intro x hx
        rw [List.append_nil] at hx
        exact hx
      · intro q qs hq
        exact absurd hq.symm (List.cons_ne_nil q qs)
      · simp
    | cons h rest =>
      have hhr : Reaches heap₀ root h :=
        hreach h (List.mem_append.2 (Or.inr (List.mem_cons_self h rest)))
      have hcs : ∀ c ∈ childHandles heap₀ h, Reaches heap₀ root c :=
        fun c hc => Reaches.step hhr hc
      have heq : ∀ l : List Nat, (ordered ++ [h]) ++ l = ordered ++ h :: l := by
        intro l
        rw [List.append_assoc]
        rfl
      have hmk2 : ∀ x : Nat, x < heap₀.length →
          ((getN heap x).marked = true ↔ x ∈ (ordered ++ [h]) ++ rest) := by
        intro x hx
        rw [heq]
        exact hmk x hx
      have hnd2 : ((ordered ++ [h]) ++ rest).Nodup := by
        rw [heq]
        exact hnd
      have hreach2 : ∀ x ∈ (ordered ++ [h]) ++ rest, Reaches heap₀ root x := by
        intro x hx
        rw [heq] at hx
        exact hreach x hx
      have hcs2 : ∀ c ∈ (getN heap h).children, Reaches heap₀ root c := by
        have hcc : (getN heap h).children = childHandles heap₀ h := hch h
        rw [hcc]
        exact hcs
      have hred : bfsLoop (fuel + 1) heap (h :: rest) ordered =
          bfsLoop fuel (markChildren heap (getN heap h).children rest).1
            (markChildren heap (getN heap h).children rest).2
            (ordered ++ [h]) := by
        simp only [bfsLoop]
      obtain ⟨m1, m2, m3, m4, m5, m6, m7⟩ := markChildren_inv heap₀ root hval
        (getN heap h).children heap rest (ordered ++ [h])
        hlen hch hmk2 hnd2 hreach2 hcs2
      set p := markChildren heap (getN heap h).children rest with hp
      have hclose2 : ∀ x ∈ ordered ++ [h], ∀ c ∈ childHandles heap₀ x,
          c ∈ (ordered ++ [h]) ++ p.2 := by
        intro x hx c hc
        rcases List.mem_append.1 hx with hxo | hxh
        · have hmem := hclose x hxo c hc
          rw [← heq rest] at hmem
          rcases List.mem_append.1 hmem with hb | hq
          · exact List.mem_append.2 (Or.inl hb)
          · exact List.mem_append.2 (Or.inr (m6 c hq))
        · have hxh' : x = h := List.mem_singleton.1 hxh
          subst hxh'
          apply m7
          have hcc : (getN heap x).children = childHandles heap₀ x := hch x
          rw [hcc]
          exact hc
      have hfuel2 : heap₀.length + 1 ≤ fuel + (ordered ++ [h]).length := by
        rw [List.length_append, List.length_singleton]
        omega
      have hres := ih p.1 p.2 (ordered ++ [h]) m1 m2 m3 m4 m5 hclose2 hfuel2
      rw [hred]
      obtain ⟨r1, r2, r3, r4, r5, r6⟩ := hres
      refine ⟨r1, r2, ?_, r4, ?_, ?_⟩
      · intro x hx
        rw [← heq rest] at hx
        rcases List.mem_append.1 hx with hb | hq
        · exact r3 x (List.mem_append.2 (Or.inl hb))
        · exact r3 x (List.mem_append.2 (Or.inr (m6 x hq)))
      · intro q qs hq
        injection hq with hq1 hq2
        subst hq1
        cases hp2 : p.2 with
        | nil =>
          have h6 := r6 hp2
          rw [hp2] at h6
          exact ⟨[], h6⟩
        | cons q1 qs1 =>
          obtain ⟨t, ht⟩ := r5 q1 qs1 hp2
          rw [hp2] at ht
          refine ⟨q1 :: t, ?_⟩
          rw [ht, heq]
      · intro hq
        exact absurd hq (List.cons_ne_nil h rest)

/-- Claim C6 (confirmed).  For every heap whose root handle is valid, whose
children edges stay within the heap and whose nodes all start unmarked (as
`buildGraphFromRootPool` produces), `orderByBfs` returns the root first and
lists every node reachable from the root exactly once.  No duplicate-freedom
of the structure is assumed, so this covers heaps in which two parents share
a child: the marking mechanism alone prevents a revisit.  When the structure
is moreover a genuine tree (its level decomposition terminates and is
duplicate-free), the output is exactly the level decomposition: the root,
then its children in declared order, then the grandchildren, level by
level. -/
theorem c6_bfs_complete_unique (heap : List Node) (root : Nat)
    (hroot : root < heap.length)
    (hchild : ∀ x : Nat, x < heap.length → ∀ c ∈ childHandles heap x,
      c < heap.length)
    (hunmk : ∀ x : Nat, x < heap.length → (getN heap x).marked = false) :
    (orderByBfs heap root).2.head? = some root ∧
      (orderByBfs heap root).2.Nodup ∧
      (∀ h : Nat, h ∈ (orderByBfs heap root).2 ↔ Reaches heap root h) ∧
      (level heap root heap.length = [] →
        (bfsUpTo heap root (heap.length + 1)).Nodup →
        (orderByBfs heap root).2 = bfsUpTo heap root (heap.length + 1)) := by
  have hval : ∀ h : Nat, Reaches heap root h → h < heap.length :=
    reaches_lt heap root hroot hchild
  have hlen1 : (heap.set root { getN heap root with marked := true }).length =
      heap.length := by
    rw [List.length_set]
  have hch1 : ∀ x : Nat,
      childHandles (heap.set root { getN heap root with marked := true }) x =
        childHandles heap x := by
    intro x
    unfold childHandles
    rw [getN_set]
    by_cases hrx : root = x ∧ root < heap.length
    · rw [if_pos hrx]
      rcases hrx with ⟨rfl, _⟩
      rfl
    · rw [if_neg hrx]
  have hmk1 : ∀ x : Nat, x < heap.length →
      ((getN (heap.set root { getN heap root with marked := true }) x).marked =
          true ↔ x ∈ ([] : List Nat) ++ [root]) := by
    intro x hx
    rw [getN_set]
    by_cases hrx : root = x ∧ root < heap.length
    · rcases hrx with ⟨rfl, hlt⟩
      simp [hlt]
    · have hxr : ¬ x = root := fun he => hrx ⟨he.symm, hroot⟩
      rw [if_neg hrx, hunmk x hx]
      simp [hxr]
  obtain ⟨r1, r2, r3, r4, r5, _⟩ := bfsLoop_mark_inv heap root hval
    (heap.length + 1) (heap.set root { getN heap root with marked := true })
    [root] [] hlen1 hch1 hmk1 (by simp)
    (by
      intro x hx
      rcases List.mem_singleton.1 hx with rfl
      exact Reaches.refl)
    (fun x hx => absurd hx (List.not_mem_nil x))
    (by simp)
  have hob : orderByBfs heap root =
      bfsLoop (heap.length + 1)
        (heap.set root { getN heap root with marked := true }) [root] [] := rfl
  have hrootmem : root ∈ (orderByBfs heap root).2 := by
    rw [hob]
    exact r3 root (by simp)
  refine ⟨?_, ?_, ?_, ?_⟩
  · obtain ⟨t, ht⟩ := r5 root [] rfl
    rw [hob, ht]
    rfl
  · rw [hob]
    exact r1
  · intro h
    constructor
    · intro hmem
      rw [hob] at hmem
      exact r2 h hmem
    · intro hr
      induction hr with
      | refl => exact hrootmem
      | step hr hc ih =>
        rw [hob] at ih ⊢
        exact r4 _ ih _ hc
  · intro hlv hndL
    have hbd : ∀ x ∈ bfsUpTo heap root (heap.length + 1), x < heap.length := by
      intro x hx
      obtain ⟨k, _, hk⟩ := List.mem_flatMap.1 hx
      exact hval x (mem_level_reaches heap root k x hk)
    exact (orderByBfs_spec heap root
      ⟨hlv, hndL, hbd, fun x hx => hunmk x (hbd x hx)⟩).1

/-- Witness for C6: the diamond-shaped heap `heapS`, whose handles 1 and 2
share the child 3, satisfies the hypotheses, and the traversal lists every
reachable node exactly once, root first — handle 3 appears once although it
is reachable through both parents. -/
theorem c6_witness :
    (0 < heapS.length ∧
        (∀ x : Nat, x < heapS.length → ∀ c ∈ childHandles heapS x,
          c < heapS.length) ∧
        (∀ x : Nat, x < heapS.length → (getN heapS x).marked = false)) ∧
      childHandles heapS 1 = [3] ∧ childHandles heapS 2 = [3] ∧
      (orderByBfs heapS 0).2 = [0, 1, 2, 3] ∧
      ((orderByBfs heapS 0).2.head? = some 0 ∧
        (orderByBfs heapS 0).2.Nodup ∧
        ∀ h : Nat, h ∈ (orderByBfs heapS 0).2 ↔ Reaches heapS 0 h) := by
  refine ⟨⟨by decide, by decide, by decide⟩, by decide, by decide, by decide,
    ?_⟩
  have hc := c6_bfs_complete_unique heapS 0 (by decide) (by decide) (by decide)
  exact ⟨hc.1, hc.2.1, hc.2.2.1⟩

theorem node_set_marked_id (n : Node) (h : n.marked = true) :
    { n with marked := true } = n := by
  cases n
  dsimp only at h ⊢
  subst h
  rfl

theorem set_getN_self (heap : List Node) (h : Nat) :
    heap.set h (getN heap h) = heap := by
  apply List.ext
  intro n
  by_cases hn : h = n
  · subst hn
    by_cases hlt : h < heap.length
    · rw [List.get?_set_eq_of_lt _ hlt, get?_eq_some_getN heap h hlt]
    · rw [List.set_eq_of_length_le (by omega)]
  · rw [List.get?_set_ne _ _ hn]

/-- Claim C10 (confirmed).  On a well-formed built tree, `orderByBfs` sets
`marked = true` on every node it returns and never resets a flag, so a
second call on the same root (without rebuilding) returns only the root. -/
theorem c10_marks_and_second_call (heap : List Node) (root : Nat)
    (hwf : WFBfs heap root) :
    (∀ h ∈ (orderByBfs heap root).2,
        (getN (orderByBfs heap root).1 h).marked = true) ∧
      (∀ h : Nat, (getN heap h).marked = true →
        (getN (orderByBfs heap root).1 h).marked = true) ∧
      (orderByBfs (orderByBfs heap root).1 root).2 = [root] := by
  obtain ⟨ho, hm⟩ := orderByBfs_spec heap root hwf
  refine ⟨?_, ?_, ?_⟩
  · intro h hmem
    rw [ho] at hmem
    exact markedAs_marked_of_mem heap _ _ hm h hmem (hwf.2.2.1 h hmem)
  · intro h hmk
    have hcomp := onlyMarks_trans (onlyMarks_set_marked heap root)
      (bfsLoop_onlyMarks (heap.length + 1)
        (heap.set root { getN heap root with marked := true }) [root] [])
    exact (hcomp h).2 hmk
  · set hp' := (orderByBfs heap root).1 with hhp
    have hrootL : root ∈ bfsUpTo heap root (heap.length + 1) :=
      @mem_level_mem_bfsUpTo heap root 0 root (heap.length + 1) (by omega)
        (List.mem_singleton.2 rfl)
    have hrootlt : root < heap.length := hwf.2.2.1 root hrootL
    have hrm : (getN hp' root).marked = true :=
      markedAs_marked_of_mem heap _ _ hm root hrootL hrootlt
    have hunfold : orderByBfs hp' root =
        bfsLoop (hp'.length + 1) hp' [root] [] := by
      simp only [orderByBfs]
      rw [node_set_marked_id _ hrm, set_getN_self]
    have hch_marked : ∀ c ∈ (getN hp' root).children,
        (getN hp' c).marked = true := by
      intro c hc
      rw [markedAs_children heap _ _ hm root] at hc
      have hcl : c ∈ level heap root 1 := by
        rw [show (1 : Nat) = 0 + 1 from rfl, level_succ]
        exact List.mem_flatMap.2 ⟨root, List.mem_singleton.2 rfl, hc⟩
      have hcL : c ∈ bfsUpTo heap root (heap.length + 1) :=
        mem_level_mem_bfsUpTo heap root (by omega) hcl
      exact markedAs_marked_of_mem heap _ _ hm c hcL (hwf.2.2.1 c hcL)
    rw [hunfold]
    simp only [bfsLoop]
    rw [markChildren_allMarked _ _ [] hch_marked, bfsLoop_nil]
    rfl

/-- Witness for C10 on the built `envA` tree. -/
theorem c10_witness :
    WFBfs heapA 0 ∧
      (orderByBfs (orderByBfs heapA 0).1 0).2 = [0] := by
  have hwf : WFBfs heapA 0 := by
    unfold WFBfs
    refine ⟨?_, ?_, ?_, ?_⟩ <;> decide
  exact ⟨hwf, (c10_marks_and_second_call heapA 0 hwf).2.2⟩

end Balancer
